import Mathlib

/-!
Verification of the Zeckendorf game implementation (`fibonacci-game.py`).

States are tuples of multiplicities: `state[i]` is the number of copies of the
base-sequence value `fibonacci i` (base sequence 1, 2, 3, 5, 8, ...).
We shallowly embed the Python source: tuples become `List Nat`, generators
become functions returning lists, exceptions become `Option`/`Except`, and the
memoized caches are embedded by their pure observable behaviour.
-/

/-- A game state: `s[i]` is the multiplicity of the base value at index `i`.
Mirrors `State = tuple[int, ...]`. -/
abbrev State := List Nat

/-- The base sequence of `fibonacci_cache`: seeded `[1, 2]`, each later value
the sum of the two predecessors. -/
def fibonacci : Nat → Nat
  | 0 => 1
  | 1 => 2
  | n + 2 => fibonacci (n + 1) + fibonacci n

/-- Value preceding `fibonacci k` in the recurrence, with the convention
`prevFib 0 = 1` (so that `fibonacci (k+1) = fibonacci k + prevFib k`). -/
def prevFib : Nat → Nat
  | 0 => 1
  | k + 1 => fibonacci k

/-- `nth s i` is the Python `state[i]` read, with out-of-range reads giving 0
(only used where the source guarantees the index is in range). -/
def nth (s : State) (i : Nat) : Nat := s.getD i 0

/-- Weighted sum `Σ s[i] · w (k + i)`; the common skeleton of `evaluate` and of
the potential functions used for acyclicity. -/
def wsum (w : Nat → Nat) : Nat → State → Nat
  | _, [] => 0
  | k, c :: r => c * w k + wsum w (k + 1) r

/-- `evaluate(state)`: `sum(count * fibonacci(i) for i, count in enumerate(state))`. -/
def evaluate (s : State) : Nat := wsum fibonacci 0 s

/-- Verification potential `Σ 3^i · s[i]`: strictly increases along every move. -/
def pot3 (s : State) : Nat := wsum (fun i => 3 ^ i) 0 s

/-- The spec's claimed potential `Σ i · s[i]`. -/
def isum (s : State) : Nat := wsum (fun i => i) 0 s

/-- Loop body of `final`: `last` is the multiplicity of the previous index. -/
def finalFrom : Nat → State → Bool
  | _, [] => true
  | last, c :: r => if 1 < c ∨ (c ≠ 0 ∧ last ≠ 0) then false else finalFrom c r

/-- `final(state)`: no multiplicity ≥ 2 and no two adjacent non-zero indices. -/
def final (s : State) : Bool := finalFrom 0 s

/-- The common tail step of every rule: `new[i] += 1`, appending a fresh `1`
when `i == len(new)` (the Python `if i == len(new): new.append(1)` branches). -/
def bumpAt (s : State) (i : Nat) : State :=
  if i = s.length then s ++ [1] else s.set i (nth s i + 1)

/-- The `1+1=2` rule: if `state[0] >= 2`, consume two units at index 0 and add
one unit at index 1 (appending if the state has length 1). -/
def rule1 (s : State) : List State :=
  match s with
  | [] => []
  | c0 :: _ => if 2 ≤ c0 then [bumpAt (s.set 0 (c0 - 2)) 1] else []

/-- The `2+2=1+3` rule: if `len(state) >= 2` and `state[1] >= 2`, consume two
units at index 1, add one at index 0 and one at index 2 (appending if needed). -/
def rule2 (s : State) : List State :=
  match s with
  | _ :: c1 :: _ =>
      if 2 ≤ c1 then [bumpAt ((s.set 1 (c1 - 2)).set 0 (nth s 0 + 1)) 2] else []
  | _ => []

/-- One firing of the merge-duplicates rule at index `i` (requires `2 ≤ i`,
`i < s.length`, `2 ≤ s[i]`): consume two at `i`, add one at `i-2` and `i+1`. -/
def merge3 (s : State) (i : Nat) : State :=
  bumpAt ((s.set i (nth s i - 2)).set (i - 2) (nth s (i - 2) + 1)) (i + 1)

/-- The merge-duplicates rule: one successor for every `i in range(2, len(state))`
with `state[i] >= 2`. -/
def rule3 (s : State) : List State :=
  (List.range' 2 (s.length - 2)).filterMap
    (fun i => if 2 ≤ nth s i then some (merge3 s i) else none)

/-- One firing of the merge-consecutives rule at index `i` (requires
`i + 1 < s.length`, both `s[i]` and `s[i+1]` non-zero): consume one unit at
each of `i`, `i+1` and add one at `i+2`. -/
def merge4 (s : State) (i : Nat) : State :=
  bumpAt ((s.set i (nth s i - 1)).set (i + 1) (nth s (i + 1) - 1)) (i + 2)

/-- The merge-consecutives rule: one successor for every
`i in range(len(state) - 1)` with `state[i]` and `state[i+1]` non-zero. -/
def rule4 (s : State) : List State :=
  (List.range' 0 (s.length - 1)).filterMap
    (fun i => if nth s i ≠ 0 ∧ nth s (i + 1) ≠ 0 then some (merge4 s i) else none)

/-- `evolve(state)`: all successors, in the generator's yield order.
(The Python generator, run on a nonempty tuple, yields exactly this list; the
empty tuple raises, see `evolveOpt`.) -/
def evolve (s : State) : List State := rule1 s ++ rule2 s ++ rule3 s ++ rule4 s

/-- One move of the game: `t` is yielded by `evolve` applied to `s`. -/
def evolveStep (s t : State) : Prop := t ∈ evolve s

/-- `s` is reachable from the initial pile `(n,)` by zero or more moves. -/
def Reachable (n : Nat) (s : State) : Prop :=
  Relation.ReflTransGen evolveStep [n] s

/-- The last entry of the state is positive (in particular the state is
nonempty).  Holds for `(n,)` with `n ≥ 1` and is preserved by every rule. -/
def lastPos (s : State) : Prop := nth s (s.length - 1) ≠ 0

/-! ### The inverse index `fibonacci_index` -/

/-- The search loop of `fibonacci_index_cache`: the cached frontier is
`best = fibonacci i`; while `best < n` the next index is cached.  The fuel
bounds the number of loop iterations; since `fibonacci i ≥ i + 1`, fuel
`n.toNat + 1` always suffices (the fuel-exhausted `-1` is never reached from
`fibonacci_index`). -/
def findFrom : Nat → Nat → Int → Int
  | 0, _, _ => -1
  | fuel + 1, i, n =>
      if (fibonacci i : Int) < n then findFrom fuel (i + 1) n
      else if (fibonacci i : Int) = n then (i : Int) else -1

/-- `fibonacci_index(n)`: the index of `n` in the base sequence if present,
else the sentinel `-1` (the `cache.get(n, -1)` fallback). -/
def fibonacci_index (n : Int) : Int := findFrom (n.toNat + 1) 0 n

/-! ### `parse` -/

/-- Decimal-digit run of Python `int(token)`; `none` models `ValueError`. -/
def digitsToNat? (cs : List Char) : Option Nat :=
  if cs ≠ [] ∧ cs.all Char.isDigit then
    some (cs.foldl (fun a c => a * 10 + (c.toNat - 48)) 0)
  else none

/-- Python `int(token)` on a whitespace-free token: optional sign followed by
decimal digits; `none` models the `ValueError` raised on malformed text. -/
def pyInt? (tok : String) : Option Int :=
  match tok.toList with
  | '-' :: rest => (digitsToNat? rest).map (fun m => -(m : Int))
  | '+' :: rest => (digitsToNat? rest).map (fun m => (m : Int))
  | cs => (digitsToNat? cs).map (fun m => (m : Int))

/-- Accumulating splitter: `acc` holds the (reversed) characters of the token
being read. -/
def splitWsAux : List Char → List Char → List String
  | [], acc => if acc = [] then [] else [String.mk acc.reverse]
  | c :: cs, acc =>
      if c.isWhitespace then
        if acc = [] then splitWsAux cs []
        else String.mk acc.reverse :: splitWsAux cs []
      else splitWsAux cs (c :: acc)

/-- `move.strip().split()`: maximal whitespace-free tokens in order (leading,
trailing and repeated whitespace contribute no tokens, so the `strip` is
subsumed). -/
def tokenize (move : String) : List String := splitWsAux move.toList []

instance : DecidableEq (Except Unit State) := fun x y =>
  match x, y with
  | .error (), .error () => isTrue rfl
  | .ok s, .ok t =>
      if h : s = t then isTrue (by rw [h])
      else isFalse (fun he => h (by injection he))
  | .error _, .ok _ => isFalse (fun h => Except.noConfusion h)
  | .ok _, .error _ => isFalse (fun h => Except.noConfusion h)

/-- The `while i >= len(state): state.append(0)` zero-extension. -/
def extendTo (state : List Nat) (i : Nat) : List Nat :=
  state ++ List.replicate (i + 1 - state.length) 0

/-- `state[i] += 1` after zero-extending so that index `i` exists. -/
def addValue (state : List Nat) (i : Nat) : List Nat :=
  (extendTo state i).set i (nth (extendTo state i) i + 1)

/-- The loop of `parse`: tokens are converted by `int` one at a time (the
Python `map` is lazy), resolved through `fibonacci_index`, and accumulated.
`Except.error ()` models an uncaught `ValueError`; `Except.ok []` is the
empty-tuple sentinel returned on a value missing from the base sequence. -/
def parseLoop : List String → List Nat → Except Unit State
  | [], state => .ok state
  | tok :: rest, state =>
      match pyInt? tok with
      | none => .error ()
      | some v =>
          let i := fibonacci_index v
          if i = -1 then .ok []
          else parseLoop rest (addValue state i.toNat)

/-- `parse(move)`. -/
def parse (move : String) : Except Unit State := parseLoop (tokenize move) []

/-! ### Bounds-checked `evolve` (exceptions made explicit) -/

/-- Python `state[i]` read: `none` models `IndexError`. -/
def getO (s : State) (i : Nat) : Option Nat := s.get? i

/-- Python `state[i] = v` write on a list copy: `none` models `IndexError`. -/
def setO (s : State) (i v : Nat) : Option State :=
  if i < s.length then some (s.set i v) else none

/-- The common tail step with explicit bounds checks:
`if j == len(new): new.append(1) else: new[j] += 1`. -/
def bumpAtO (s : State) (j : Nat) : Option State :=
  if j = s.length then some (s ++ [1])
  else do
    let c ← getO s j
    setO s j (c + 1)

/-- Bounds-checked `1+1=2` rule (the `state[0]` read is unguarded). -/
def rule1O (s : State) : Option (List State) := do
  let c0 ← getO s 0
  if 2 ≤ c0 then
    let n1 ← setO s 0 (c0 - 2)
    let n2 ← bumpAtO n1 1
    some [n2]
  else some []

/-- Bounds-checked `2+2=1+3` rule (`len(state) >= 2` short-circuits the
`state[1]` read). -/
def rule2O (s : State) : Option (List State) :=
  if 2 ≤ s.length then do
    let c1 ← getO s 1
    if 2 ≤ c1 then
      let n1 ← setO s 1 (c1 - 2)
      let c0 ← getO n1 0
      let n2 ← setO n1 0 (c0 + 1)
      let n3 ← bumpAtO n2 2
      some [n3]
    else some []
  else some []

/-- Bounds-checked merge-duplicates loop body over the indices of
`range(2, len(state))`. -/
def rule3OAux (s : State) : List Nat → Option (List State)
  | [] => some []
  | i :: is => do
      let ci ← getO s i
      if 2 ≤ ci then
        let n1 ← setO s i (ci - 2)
        let a ← getO n1 (i - 2)
        let n2 ← setO n1 (i - 2) (a + 1)
        let n3 ← bumpAtO n2 (i + 1)
        let rest ← rule3OAux s is
        some (n3 :: rest)
      else rule3OAux s is

/-- Bounds-checked merge-duplicates rule. -/
def rule3O (s : State) : Option (List State) :=
  rule3OAux s (List.range' 2 (s.length - 2))

/-- Bounds-checked merge-consecutives loop body over `range(len(state) - 1)`. -/
def rule4OAux (s : State) : List Nat → Option (List State)
  | [] => some []
  | i :: is => do
      let a ← getO s i
      let b ← getO s (i + 1)
      if a ≠ 0 ∧ b ≠ 0 then
        let n1 ← setO s i (a - 1)
        let n2 ← setO n1 (i + 1) (b - 1)
        let n3 ← bumpAtO n2 (i + 2)
        let rest ← rule4OAux s is
        some (n3 :: rest)
      else rule4OAux s is

/-- Bounds-checked merge-consecutives rule. -/
def rule4O (s : State) : Option (List State) :=
  rule4OAux s (List.range' 0 (s.length - 1))

/-- `evolve` with Python's index accesses made explicit: `none` models an
`IndexError` escaping the generator. -/
def evolveOpt (s : State) : Option (List State) := do
  let r1 ← rule1O s
  let r2 ← rule2O s
  let r3 ← rule3O s
  let r4 ← rule4O s
  some (r1 ++ r2 ++ r3 ++ r4)

/-! ### The reachability-graph builder `generate` -/

/-- The graph, as Python's insertion-ordered `dict[State, list[State]]`: an
association list whose keys are distinct by construction. -/
abbrev Graph := List (State × List State)

/-- The keys of the graph, in insertion order. -/
def keys (G : Graph) : List State := G.map Prod.fst

/-- Dictionary lookup `graph[s]` (first matching key); `none` models
`KeyError`. -/
def glookup : Graph → State → Option (List State)
  | [], _ => none
  | (k, v) :: rest, s => if k = s then some v else glookup rest s

/-- Python `child in graph`. -/
def containsKey (G : Graph) (s : State) : Bool := (glookup G s).isSome

/-- `graph[s].append(c)` (first matching key gets the new child). -/
def appendChild : Graph → State → State → Graph
  | [], _, _ => []
  | (k, v) :: rest, s, c =>
      if k = s then (k, v ++ [c]) :: rest else (k, v) :: appendChild rest s c

/-- The `for child in evolve(state)` loop body of `generate`: each child is
appended to `graph[state]`; a child that is neither terminal nor already a key
becomes a new key with empty successor list and is pushed on the worklist. -/
def genVisit (s : State) : List State → Graph → List State → Graph × List State
  | [], G, opts => (G, opts)
  | c :: cs, G, opts =>
      let G1 := appendChild G s c
      if final c || containsKey G1 c then genVisit s cs G1 opts
      else genVisit s cs (G1 ++ [(c, [])]) (opts ++ [c])

/-- The `while options` loop of `generate`, with explicit fuel;
`options.pop()` removes the last element.  `none` means the fuel ran out,
which never happens for the fuel `generate` supplies (see C2). -/
def genLoop : Nat → Graph → List State → Option Graph
  | 0, _, _ => none
  | fuel + 1, G, opts =>
      match opts.getLast? with
      | none => some G
      | some s =>
          let p := genVisit s (evolve s) G opts.dropLast
          genLoop fuel p.1 p.2

/-- All lists of length exactly `l` with entries at most `b`. -/
def allLists : Nat → Nat → List State
  | 0, _ => [[]]
  | l + 1, b =>
      (List.range (b + 1)).flatMap (fun c => (allLists l b).map (fun s => c :: s))

/-- The finite pool of candidate states for starting value `n`: length ≤ `n`,
entries ≤ `n`.  Every key `generate n` creates lies in this list, which gives
the termination measure of the worklist loop. -/
def candidates (n : Nat) : List State :=
  (List.range (n + 1)).flatMap (fun l => allLists l n)

/-- Fuel that provably suffices for `genLoop` from the initial worklist. -/
def genFuel (n : Nat) : Nat := 2 * (candidates n).length + 2

/-- `generate(n)`: the reachability graph from `(n,)`.  The `getD` default is
never used — `genLoop` succeeds with this fuel (see C2). -/
def generate (n : Nat) : Graph :=
  (genLoop (genFuel n) [([n], [])] [[n]]).getD [([n], [])]

/-- Edge relation of a built graph: `t` occurs in the successor list of `s`. -/
def EdgeOf (G : Graph) (s t : State) : Prop :=
  ∃ l, glookup G s = some l ∧ t ∈ l

/-! ### The strategy solver `strategize` -/

/-- All nodes of the graph in graphlib's sense: the keys together with every
state occurring in a successor list (deduplicated). -/
def nodesOf (G : Graph) : List State :=
  (G.map Prod.fst ++ (G.map Prod.snd).flatten).dedup

/-- Predecessors of a node in `TopologicalSorter(graph)`'s sense — graphlib
reads the mapping as node ↦ predecessors, so these are the game successors. -/
def preds (G : Graph) (s : State) : List State := (glookup G s).getD []

/-- One selection step of the topological sort: the first remaining node all
of whose predecessors are already emitted. -/
def pickReady (G : Graph) (done rem : List State) : Option State :=
  rem.find? (fun r => (preds G r).all (fun p => decide (p ∈ done)))

/-- Kahn-style topological ordering of the graph's nodes, modelling
`TopologicalSorter(graph).static_order()`; `none` models `CycleError`. -/
def topoAux (G : Graph) : Nat → List State → List State → Option (List State)
  | 0, _, rem => if rem.isEmpty then some [] else none
  | fuel + 1, done, rem =>
      if rem.isEmpty then some []
      else
        match pickReady G done rem with
        | none => none
        | some r =>
            match topoAux G fuel (done ++ [r]) (rem.erase r) with
            | none => none
            | some tail => some (r :: tail)

/-- `static_order()` of the graph's nodes. -/
def topoOrder (G : Graph) : Option (List State) :=
  topoAux G (nodesOf G).length [] (nodesOf G)

/-- `[child for child in graph[state] if not strategy[child]]`, the
`strategy[child]` lookups' potential `KeyError` made explicit. -/
def stratFilter (strat : Graph) : List State → Option (List State)
  | [] => some []
  | c :: cs => do
      let m ← glookup strat c
      let rest ← stratFilter strat cs
      if m.isEmpty then some (c :: rest) else some rest

/-- The `for state in order` loop of `strategize`. -/
def strategizeGo (G : Graph) : List State → Graph → Option Graph
  | [], strat => some strat
  | s :: rest, strat => do
      let children ← glookup G s
      let moves ← stratFilter strat children
      strategizeGo G rest (strat ++ [(s, moves)])

/-- `strategize(graph)`: seed the first node of the topological order with the
empty strategy, then process the remaining nodes in order.  `none` models an
uncaught exception (`CycleError`, `StopIteration`, or a `KeyError` in
`graph[state]` / `strategy[child]`); none occurs on graphs produced by
`generate` (see C9). -/
def strategize (G : Graph) : Option Graph := do
  let ord ← topoOrder G
  match ord with
  | [] => none
  | first :: rest => strategizeGo G rest [(first, [])]

/-- Game successors as recorded in the graph (empty for non-keys). -/
def succsOf (G : Graph) (s : State) : List State := (glookup G s).getD []

/-- Invariant of `generate`'s worklist loop, tying the partially built graph
`G` and the worklist `opts` to the starting value `n`. -/
structure GInv (n : Nat) (G : Graph) (opts : List State) : Prop where
  keysNodup : (keys G).Nodup
  initMem : [n] ∈ keys G
  optsNodup : opts.Nodup
  optsKeys : ∀ o ∈ opts, o ∈ keys G
  keysReach : ∀ k ∈ keys G, Reachable n k
  keysInit : ∀ k ∈ keys G, k = [n] ∨ final k = false
  keysStatus : ∀ k ∈ keys G,
    (k ∈ opts ∧ glookup G k = some []) ∨
    (k ∉ opts ∧ glookup G k = some (evolve k) ∧
      ∀ c ∈ evolve k, final c = true ∨ c ∈ keys G)

/-- `done` lists the already-emitted nodes; every node of `todo` has all its
graphlib predecessors (= game successors) among the nodes emitted before it. -/
def TopoSorted (G : Graph) : List State → List State → Prop
  | _, [] => True
  | done, r :: rest => (∀ p ∈ preds G r, p ∈ done) ∧ TopoSorted G (done ++ [r]) rest

/-! ### Basic facts about the base sequence -/

theorem fib_succ_succ (k : Nat) :
    fibonacci (k + 2) = fibonacci (k + 1) + fibonacci k := rfl

theorem fib_pos : ∀ k, 1 ≤ fibonacci k
  | 0 => le_refl 1
  | 1 => by simp [fibonacci]
  | k + 2 => by
      have := fib_pos (k + 1)
      simp only [fib_succ_succ]; omega

theorem prevFib_pos (k : Nat) : 1 ≤ prevFib k := by
  cases k with
  | zero => exact le_refl 1
  | succ k => exact fib_pos k

theorem fib_succ (k : Nat) : fibonacci (k + 1) = fibonacci k + prevFib k := by
  cases k with
  | zero => rfl
  | succ k => exact fib_succ_succ k

theorem fib_lt_succ (k : Nat) : fibonacci k < fibonacci (k + 1) := by
  have h := fib_succ k
  have := prevFib_pos k
  omega

theorem fib_mono {j k : Nat} (h : j ≤ k) : fibonacci j ≤ fibonacci k := by
  induction h with
  | refl => exact le_refl _
  | step _ ih => exact le_trans ih (le_of_lt (fib_lt_succ _))

theorem fib_strictMono {j k : Nat} (h : j < k) : fibonacci j < fibonacci k :=
  lt_of_lt_of_le (fib_lt_succ j) (fib_mono h)

theorem prevFib_le (k : Nat) : prevFib k ≤ fibonacci k := by
  cases k with
  | zero => exact le_refl 1
  | succ k => exact le_of_lt (fib_lt_succ k)

theorem fib_ge : ∀ k, k + 1 ≤ fibonacci k
  | 0 => le_refl 1
  | k + 1 => by
      have h1 := fib_ge k
      have h2 := fib_succ k
      have h3 := prevFib_pos k
      omega

/-! ### Index and weighted-sum toolkit -/

theorem nth_nil (i : Nat) : nth [] i = 0 := by cases i <;> rfl

theorem nth_cons_zero (c : Nat) (r : State) : nth (c :: r) 0 = c := rfl

theorem nth_cons_succ (c : Nat) (r : State) (i : Nat) :
    nth (c :: r) (i + 1) = nth r i := rfl

theorem nth_of_le_length {s : State} {i : Nat} (h : s.length ≤ i) : nth s i = 0 := by
  induction s generalizing i with
  | nil => exact nth_nil i
  | cons c r ih =>
      cases i with
      | zero => simp at h
      | succ i => rw [nth_cons_succ]; exact ih (by simpa using h)

theorem lt_length_of_nth_ne {s : State} {i : Nat} (h : nth s i ≠ 0) : i < s.length := by
  by_contra hc
  exact h (nth_of_le_length (by omega))

theorem nth_set_self {s : State} {i : Nat} (v : Nat) (h : i < s.length) :
    nth (s.set i v) i = v := by
  induction s generalizing i with
  | nil => simp at h
  | cons c r ih =>
      cases i with
      | zero => rfl
      | succ i =>
          rw [List.set_cons_succ, nth_cons_succ]
          exact ih (by simpa using h)

theorem nth_set_ne {s : State} {i j : Nat} (v : Nat) (h : i ≠ j) :
    nth (s.set i v) j = nth s j := by
  induction s generalizing i j with
  | nil => cases j <;> rfl
  | cons c r ih =>
      cases i with
      | zero => cases j with
          | zero => exact absurd rfl h
          | succ j => rfl
      | succ i =>
          cases j with
          | zero => rfl
          | succ j =>
              rw [List.set_cons_succ, nth_cons_succ, nth_cons_succ]
              exact ih (fun hij => h (by omega))

theorem wsum_append (w : Nat → Nat) :
    ∀ (s : State) (t : State) (k : Nat),
      wsum w k (s ++ t) = wsum w k s + wsum w (k + s.length) t
  | [], t, k => by simp [wsum]
  | c :: r, t, k => by
      show c * w k + wsum w (k + 1) (r ++ t) = c * w k + wsum w (k + 1) r + _
      rw [wsum_append w r t (k + 1)]
      have : k + 1 + r.length = k + (c :: r).length := by simp; omega
      rw [this]; ring

theorem wsum_set (w : Nat → Nat) :
    ∀ (s : State) (k i v : Nat), i < s.length →
      wsum w k (s.set i v) + nth s i * w (k + i) = wsum w k s + v * w (k + i)
  | [], _, i, _, h => by simp at h
  | c :: r, k, 0, v, _ => by
      simp only [List.set_cons_zero, wsum, nth_cons_zero, Nat.add_zero]; ring
  | c :: r, k, i + 1, v, h => by
      simp only [List.set_cons_succ, wsum, nth_cons_succ]
      have ih := wsum_set w r (k + 1) i v (by simpa using h)
      have : k + 1 + i = k + (i + 1) := by omega
      rw [this] at ih
      omega

theorem length_bumpAt_or (s : State) (i : Nat) :
    (bumpAt s i).length = s.length ∨ (bumpAt s i).length = s.length + 1 := by
  unfold bumpAt
  split
  · right; simp
  · left; simp

theorem length_bumpAt_pos {s : State} {i : Nat} (h : 1 ≤ s.length) :
    1 ≤ (bumpAt s i).length := by
  rcases length_bumpAt_or s i with h' | h' <;> omega

theorem wsum_bumpAt (w : Nat → Nat) {s : State} {i : Nat} (h : i ≤ s.length) :
    wsum w 0 (bumpAt s i) = wsum w 0 s + w i := by
  unfold bumpAt
  split
  · rename_i he
    rw [wsum_append]
    simp [wsum, he]
  · rename_i hne
    have hlt : i < s.length := lt_of_le_of_ne h hne
    have := wsum_set w s 0 i (nth s i + 1) hlt
    simp only [Nat.zero_add] at this
    have expand : (nth s i + 1) * w i = nth s i * w i + w i := by ring
    omega

/-! ### Characterizing membership in each rule's output -/

theorem mem_rule1 {s t : State} :
    t ∈ rule1 s ↔
      1 ≤ s.length ∧ 2 ≤ nth s 0 ∧ t = bumpAt (s.set 0 (nth s 0 - 2)) 1 := by
  cases s with
  | nil => simp [rule1]
  | cons c0 r =>
      simp only [rule1, nth_cons_zero]
      split
      · simp only [List.mem_singleton, List.length_cons]
        constructor
        · intro h; exact ⟨by omega, by assumption, h⟩
        · intro ⟨_, _, h⟩; exact h
      · simp only [List.not_mem_nil, false_iff]
        intro ⟨_, h, _⟩; omega

theorem mem_rule2 {s t : State} :
    t ∈ rule2 s ↔
      2 ≤ s.length ∧ 2 ≤ nth s 1 ∧
        t = bumpAt ((s.set 1 (nth s 1 - 2)).set 0 (nth s 0 + 1)) 2 := by
  cases s with
  | nil => simp [rule2]
  | cons c0 r =>
      cases r with
      | nil =>
          simp only [rule2, List.not_mem_nil, false_iff]
          intro ⟨h, _, _⟩; simp at h
      | cons c1 r' =>
          simp only [rule2, nth_cons_succ, nth_cons_zero]
          split
          · simp only [List.mem_singleton, List.length_cons]
            constructor
            · intro h; exact ⟨by omega, by assumption, h⟩
            · intro ⟨_, _, h⟩; exact h
          · simp only [List.not_mem_nil, false_iff]
            intro ⟨_, h, _⟩; omega

theorem mem_rule3 {s t : State} :
    t ∈ rule3 s ↔ ∃ i, 2 ≤ i ∧ i < s.length ∧ 2 ≤ nth s i ∧ t = merge3 s i := by
  simp only [rule3, List.mem_filterMap, List.mem_range'_1]
  constructor
  · rintro ⟨i, ⟨h2, hlt⟩, hf⟩
    split at hf
    · rename_i hc
      exact ⟨i, h2, by omega, hc, by injection hf with h; exact h.symm⟩
    · simp at hf
  · rintro ⟨i, h2, hlt, hc, ht⟩
    refine ⟨i, ⟨h2, by omega⟩, ?_⟩
    rw [if_pos hc, ht]

theorem mem_rule4 {s t : State} :
    t ∈ rule4 s ↔
      ∃ i, i + 1 < s.length ∧ nth s i ≠ 0 ∧ nth s (i + 1) ≠ 0 ∧ t = merge4 s i := by
  simp only [rule4, List.mem_filterMap, List.mem_range'_1]
  constructor
  · rintro ⟨i, ⟨_, hlt⟩, hf⟩
    split at hf
    · rename_i hc
      exact ⟨i, by omega, hc.1, hc.2, by injection hf with h; exact h.symm⟩
    · simp at hf
  · rintro ⟨i, hlt, hc1, hc2, ht⟩
    refine ⟨i, ⟨by omega, by omega⟩, ?_⟩
    rw [if_pos ⟨hc1, hc2⟩, ht]

theorem mem_evolve {s t : State} :
    t ∈ evolve s ↔ t ∈ rule1 s ∨ t ∈ rule2 s ∨ t ∈ rule3 s ∨ t ∈ rule4 s := by
  simp [evolve]

/-! ### Each rule's effect on a weighted sum -/

theorem rule1_wsum (w : Nat → Nat) {s t : State}
    (hlen : 1 ≤ s.length) (hc : 2 ≤ nth s 0)
    (ht : t = bumpAt (s.set 0 (nth s 0 - 2)) 1) :
    wsum w 0 t + 2 * w 0 = wsum w 0 s + w 1 := by
  subst ht
  obtain ⟨c', hc'⟩ : ∃ c', nth s 0 = c' + 2 := ⟨nth s 0 - 2, by omega⟩
  have hsub : nth s 0 - 2 = c' := by omega
  rw [hsub]
  have hset := wsum_set w s 0 0 c' (by omega)
  simp only [Nat.add_zero, Nat.zero_add, hc'] at hset
  have hb : wsum w 0 (bumpAt (s.set 0 c') 1) = wsum w 0 (s.set 0 c') + w 1 :=
    wsum_bumpAt w (by simp; omega)
  have expand : (c' + 2) * w 0 = c' * w 0 + 2 * w 0 := by ring
  omega

theorem rule2_wsum (w : Nat → Nat) {s t : State}
    (hlen : 2 ≤ s.length) (hc : 2 ≤ nth s 1)
    (ht : t = bumpAt ((s.set 1 (nth s 1 - 2)).set 0 (nth s 0 + 1)) 2) :
    wsum w 0 t + 2 * w 1 = wsum w 0 s + w 0 + w 2 := by
  subst ht
  obtain ⟨c', hc'⟩ : ∃ c', nth s 1 = c' + 2 := ⟨nth s 1 - 2, by omega⟩
  have hsub : nth s 1 - 2 = c' := by omega
  rw [hsub]
  have hset1 := wsum_set w s 0 1 c' (by omega)
  simp only [Nat.zero_add, hc'] at hset1
  have hn0 : nth (s.set 1 c') 0 = nth s 0 := nth_set_ne _ (by omega)
  have hset2 := wsum_set w (s.set 1 c') 0 0 (nth s 0 + 1) (by simp; omega)
  simp only [Nat.add_zero, Nat.zero_add, hn0] at hset2
  have hb : wsum w 0 (bumpAt ((s.set 1 c').set 0 (nth s 0 + 1)) 2)
      = wsum w 0 ((s.set 1 c').set 0 (nth s 0 + 1)) + w 2 :=
    wsum_bumpAt w (by simp; omega)
  have e1 : (c' + 2) * w 1 = c' * w 1 + 2 * w 1 := by ring
  have e2 : (nth s 0 + 1) * w 0 = nth s 0 * w 0 + w 0 := by ring
  omega

theorem rule3_wsum (w : Nat → Nat) {s : State} {i : Nat}
    (h2 : 2 ≤ i) (hlt : i < s.length) (hc : 2 ≤ nth s i) :
    wsum w 0 (merge3 s i) + 2 * w i = wsum w 0 s + w (i - 2) + w (i + 1) := by
  unfold merge3
  obtain ⟨c', hc'⟩ : ∃ c', nth s i = c' + 2 := ⟨nth s i - 2, by omega⟩
  have hsub : nth s i - 2 = c' := by omega
  rw [hsub]
  have hset1 := wsum_set w s 0 i c' hlt
  simp only [Nat.zero_add, hc'] at hset1
  have hni : nth (s.set i c') (i - 2) = nth s (i - 2) := nth_set_ne _ (by omega)
  have hset2 := wsum_set w (s.set i c') 0 (i - 2) (nth s (i - 2) + 1) (by simp; omega)
  simp only [Nat.zero_add, hni] at hset2
  have hb : wsum w 0 (bumpAt ((s.set i c').set (i - 2) (nth s (i - 2) + 1)) (i + 1))
      = wsum w 0 ((s.set i c').set (i - 2) (nth s (i - 2) + 1)) + w (i + 1) :=
    wsum_bumpAt w (by simp; omega)
  have e1 : (c' + 2) * w i = c' * w i + 2 * w i := by ring
  have e2 : (nth s (i - 2) + 1) * w (i - 2) = nth s (i - 2) * w (i - 2) + w (i - 2) := by
    ring
  omega

theorem rule4_wsum (w : Nat → Nat) {s : State} {i : Nat}
    (hlt : i + 1 < s.length) (hc1 : nth s i ≠ 0) (hc2 : nth s (i + 1) ≠ 0) :
    wsum w 0 (merge4 s i) + w i + w (i + 1) = wsum w 0 s + w (i + 2) := by
  unfold merge4
  obtain ⟨a', ha'⟩ : ∃ a', nth s i = a' + 1 := ⟨nth s i - 1, by omega⟩
  obtain ⟨b', hb'⟩ : ∃ b', nth s (i + 1) = b' + 1 := ⟨nth s (i + 1) - 1, by omega⟩
  have hsa : nth s i - 1 = a' := by omega
  have hsb : nth s (i + 1) - 1 = b' := by omega
  rw [hsa, hsb]
  have hset1 := wsum_set w s 0 i a' (by omega)
  simp only [Nat.zero_add, ha'] at hset1
  have hni : nth (s.set i a') (i + 1) = nth s (i + 1) := nth_set_ne _ (by omega)
  have hset2 := wsum_set w (s.set i a') 0 (i + 1) b' (by simp; omega)
  simp only [Nat.zero_add, hni, hb'] at hset2
  have hb : wsum w 0 (bumpAt ((s.set i a').set (i + 1) b') (i + 2))
      = wsum w 0 ((s.set i a').set (i + 1) b') + w (i + 2) :=
    wsum_bumpAt w (by simp; omega)
  have e1 : (a' + 1) * w i = a' * w i + w i := by ring
  have e2 : (b' + 1) * w (i + 1) = b' * w (i + 1) + w (i + 1) := by ring
  omega

/-! ### Every move preserves `evaluate`, increases `pot3`, keeps states nonempty -/

theorem fib_double (j : Nat) : fibonacci j + fibonacci (j + 3) = 2 * fibonacci (j + 2) := by
  have h1 : fibonacci (j + 3) = fibonacci (j + 2) + fibonacci (j + 1) := fib_succ_succ (j + 1)
  have h2 : fibonacci (j + 2) = fibonacci (j + 1) + fibonacci j := fib_succ_succ j
  omega

theorem evolve_evaluate {s t : State} (h : t ∈ evolve s) : evaluate t = evaluate s := by
  rcases mem_evolve.1 h with h1 | h2 | h3 | h4
  · obtain ⟨hl, hc, ht⟩ := mem_rule1.1 h1
    have := rule1_wsum fibonacci hl hc ht
    have e0 : fibonacci 0 = 1 := rfl
    have e1 : fibonacci 1 = 2 := rfl
    unfold evaluate; omega
  · obtain ⟨hl, hc, ht⟩ := mem_rule2.1 h2
    have := rule2_wsum fibonacci hl hc ht
    have e0 : fibonacci 0 = 1 := rfl
    have e1 : fibonacci 1 = 2 := rfl
    have e2 : fibonacci 2 = 3 := rfl
    unfold evaluate; omega
  · obtain ⟨i, h2i, hlt, hc, ht⟩ := mem_rule3.1 h3
    obtain ⟨j, hj⟩ : ∃ j, i = j + 2 := ⟨i - 2, by omega⟩
    have hw := rule3_wsum fibonacci h2i hlt hc
    have hij : i - 2 = j := by omega
    rw [hij, hj] at hw
    have e321 : j + 2 + 1 = j + 3 := rfl
    rw [e321] at hw
    have := fib_double j
    rw [ht, hj]
    unfold evaluate at *
    omega
  · obtain ⟨i, hlt, hc1, hc2, ht⟩ := mem_rule4.1 h4
    have hw := rule4_wsum fibonacci hlt hc1 hc2
    have := fib_succ_succ i
    rw [ht]
    unfold evaluate at *
    omega

theorem evolve_pot3 {s t : State} (h : t ∈ evolve s) : pot3 s < pot3 t := by
  rcases mem_evolve.1 h with h1 | h2 | h3 | h4
  · obtain ⟨hl, hc, ht⟩ := mem_rule1.1 h1
    have := rule1_wsum (fun i => 3 ^ i) hl hc ht
    simp only at this
    have e0 : 3 ^ 0 = 1 := rfl
    have e1 : 3 ^ 1 = 3 := rfl
    unfold pot3; omega
  · obtain ⟨hl, hc, ht⟩ := mem_rule2.1 h2
    have := rule2_wsum (fun i => 3 ^ i) hl hc ht
    simp only at this
    have e0 : 3 ^ 0 = 1 := rfl
    have e1 : 3 ^ 1 = 3 := rfl
    have e2 : 3 ^ 2 = 9 := rfl
    unfold pot3; omega
  · obtain ⟨i, h2i, hlt, hc, ht⟩ := mem_rule3.1 h3
    obtain ⟨j, hj⟩ : ∃ j, i = j + 2 := ⟨i - 2, by omega⟩
    have hw := rule3_wsum (fun i => 3 ^ i) h2i hlt hc
    simp only at hw
    have hij : i - 2 = j := by omega
    rw [hij, hj] at hw
    have e321 : j + 2 + 1 = j + 3 := rfl
    rw [e321] at hw
    have p2 : 3 ^ (j + 2) = 9 * 3 ^ j := by ring
    have p3 : 3 ^ (j + 3) = 27 * 3 ^ j := by ring
    have hx : 1 ≤ 3 ^ j := Nat.one_le_pow _ _ (by norm_num)
    rw [ht, hj]
    unfold pot3 at *
    omega
  · obtain ⟨i, hlt, hc1, hc2, ht⟩ := mem_rule4.1 h4
    have hw := rule4_wsum (fun i => 3 ^ i) hlt hc1 hc2
    simp only at hw
    have p1 : 3 ^ (i + 1) = 3 * 3 ^ i := by ring
    have p2 : 3 ^ (i + 2) = 9 * 3 ^ i := by ring
    have hx : 1 ≤ 3 ^ i := Nat.one_le_pow _ _ (by norm_num)
    rw [ht]
    unfold pot3 at *
    omega

theorem evolve_length {s t : State} (h : t ∈ evolve s) : 1 ≤ t.length := by
  rcases mem_evolve.1 h with h1 | h2 | h3 | h4
  · obtain ⟨hl, _, ht⟩ := mem_rule1.1 h1
    rw [ht]; exact length_bumpAt_pos (by simpa using hl)
  · obtain ⟨hl, _, ht⟩ := mem_rule2.1 h2
    rw [ht]; exact length_bumpAt_pos (by simp; omega)
  · obtain ⟨i, h2i, hlt, _, ht⟩ := mem_rule3.1 h3
    rw [ht]; exact length_bumpAt_pos (by simp; omega)
  · obtain ⟨i, hlt, _, _, ht⟩ := mem_rule4.1 h4
    rw [ht]; exact length_bumpAt_pos (by simp; omega)

theorem evolve_of_empty : evolve [] = [] := rfl

theorem evaluate_single (n : Nat) : evaluate [n] = n := by
  show n * fibonacci 0 + 0 = n
  simp [fibonacci]

theorem reachable_evaluate {n : Nat} {s : State} (h : Reachable n s) :
    evaluate s = n := by
  induction h with
  | refl => exact evaluate_single n
  | tail _ hstep ih => rw [evolve_evaluate hstep]; exact ih

/-- C1. Value invariance: every successor yielded by `evolve` has the same
`evaluate` as its parent (for any state of length ≥ 1), and consequently every
state reachable from the initial state `(n,)` evaluates to `n`. -/
theorem claim_c1_value_invariance :
    (∀ s : State, 1 ≤ s.length → ∀ t ∈ evolve s, evaluate t = evaluate s) ∧
    (∀ (n : Nat) (s : State), Reachable n s → evaluate s = n) :=
  ⟨fun _ _ _ ht => evolve_evaluate ht, fun _ _ h => reachable_evaluate h⟩

/-- Witness for C1 at the concrete move `(2,) → (0, 1)`. -/
theorem claim_c1_value_invariance_witness :
    evaluate [0, 1] = evaluate [2] ∧ evaluate [2] = 2 :=
  ⟨claim_c1_value_invariance.1 [2] (by decide) [0, 1] (by decide),
   claim_c1_value_invariance.2 2 [2] Relation.ReflTransGen.refl⟩

/-- C5, counterexample: the merge-duplicates move `(0,0,2) → (1,0,0,1)` yields
a successor whose index-weighted unit sum `Σ i · state[i]` is 3 < 4, refuting
the claimed strict increase of that quantity. -/
theorem claim_c5_counterexample :
    [1, 0, 0, 1] ∈ evolve [0, 0, 2] ∧ 1 ≤ ([0, 0, 2] : State).length ∧
      ¬ isum [0, 0, 2] < isum [1, 0, 0, 1] := by
  refine ⟨by decide, by decide, by decide⟩

/-- C5, amended: the spec's quantity `Σ i · state[i]` does not strictly
increase with every move (re-split preserves it and merge-duplicates decreases
it); the corrected potential `Σ 3^i · state[i]` does strictly increase for
every successor yielded by `evolve` from a state of length ≥ 1. -/
theorem claim_c5_amended (s : State) (h : 1 ≤ s.length) :
    ∀ t ∈ evolve s, pot3 s < pot3 t :=
  fun _ ht => evolve_pot3 ht

/-- Witness for the amended C5 at the concrete move `(2,) → (0, 1)`. -/
theorem claim_c5_amended_witness : pot3 [2] < pot3 [0, 1] :=
  claim_c5_amended [2] (by decide) [0, 1] (by decide)

/-! ### The terminal test agrees with the rule engine (C3) -/

theorem finalFrom_le1 :
    ∀ (s : State) (last : Nat), finalFrom last s = true → ∀ i, nth s i ≤ 1
  | [], _, _, i => by rw [nth_nil]; omega
  | c :: r, last, h, i => by
      unfold finalFrom at h
      split at h
      · exact absurd h (by simp)
      · rename_i hg
        cases i with
        | zero => rw [nth_cons_zero]; omega
        | succ i => rw [nth_cons_succ]; exact finalFrom_le1 r c h i

theorem finalFrom_adj :
    ∀ (s : State) (last : Nat), finalFrom last s = true →
      (last = 0 ∨ nth s 0 = 0) ∧ ∀ i, nth s i = 0 ∨ nth s (i + 1) = 0
  | [], _, _ => by
      refine ⟨Or.inr (nth_nil 0), fun i => Or.inl (nth_nil i)⟩
  | c :: r, last, h => by
      unfold finalFrom at h
      split at h
      · exact absurd h (by simp)
      · rename_i hg
        have ih := finalFrom_adj r c h
        constructor
        · rw [nth_cons_zero]; omega
        · intro i
          cases i with
          | zero =>
              rw [nth_cons_zero, nth_cons_succ]
              rcases ih.1 with h' | h'
              · exact Or.inl h'
              · exact Or.inr h'
          | succ i =>
              rw [nth_cons_succ, nth_cons_succ]
              exact ih.2 i

theorem finalFrom_false :
    ∀ (s : State) (last : Nat), finalFrom last s = false →
      (∃ i, 2 ≤ nth s i) ∨ (last ≠ 0 ∧ nth s 0 ≠ 0) ∨
        (∃ i, nth s i ≠ 0 ∧ nth s (i + 1) ≠ 0)
  | [], _, h => by simp [finalFrom] at h
  | c :: r, last, h => by
      unfold finalFrom at h
      split at h
      · rename_i hg
        rcases hg with hc | ⟨hc, hl⟩
        · exact Or.inl ⟨0, by rw [nth_cons_zero]; omega⟩
        · exact Or.inr (Or.inl ⟨hl, by rwa [nth_cons_zero]⟩)
      · rcases finalFrom_false r c h with ⟨i, hi⟩ | ⟨hc, h0⟩ | ⟨i, h1, h2⟩
        · exact Or.inl ⟨i + 1, by rwa [nth_cons_succ]⟩
        · exact Or.inr (Or.inr ⟨0, by rwa [nth_cons_zero], by rwa [nth_cons_succ]⟩)
        · exact Or.inr (Or.inr ⟨i + 1, by rwa [nth_cons_succ], by rwa [nth_cons_succ]⟩)

theorem final_evolve_nil {s : State} (h : final s = true) : evolve s = [] := by
  have le1 := finalFrom_le1 s 0 h
  have adj := (finalFrom_adj s 0 h).2
  have h1 : rule1 s = [] := by
    rw [List.eq_nil_iff_forall_not_mem]
    intro t ht
    obtain ⟨_, hc, _⟩ := mem_rule1.1 ht
    have := le1 0; omega
  have h2 : rule2 s = [] := by
    rw [List.eq_nil_iff_forall_not_mem]
    intro t ht
    obtain ⟨_, hc, _⟩ := mem_rule2.1 ht
    have := le1 1; omega
  have h3 : rule3 s = [] := by
    rw [List.eq_nil_iff_forall_not_mem]
    intro t ht
    obtain ⟨i, _, _, hc, _⟩ := mem_rule3.1 ht
    have := le1 i; omega
  have h4 : rule4 s = [] := by
    rw [List.eq_nil_iff_forall_not_mem]
    intro t ht
    obtain ⟨i, _, hc1, hc2, _⟩ := mem_rule4.1 ht
    rcases adj i with h' | h' <;> contradiction
  simp [evolve, h1, h2, h3, h4]

theorem evolve_ne_nil_of_not_final {s : State} (h : final s = false) :
    evolve s ≠ [] := by
  rcases finalFrom_false s 0 h with ⟨i, hi⟩ | ⟨hc, _⟩ | ⟨i, h1, h2⟩
  · have hlt : i < s.length := lt_length_of_nth_ne (by omega)
    match i, hi, hlt with
    | 0, hi, hlt =>
        have : bumpAt (s.set 0 (nth s 0 - 2)) 1 ∈ evolve s :=
          mem_evolve.2 (Or.inl (mem_rule1.2 ⟨by omega, hi, rfl⟩))
        exact List.ne_nil_of_mem this
    | 1, hi, hlt =>
        have : bumpAt ((s.set 1 (nth s 1 - 2)).set 0 (nth s 0 + 1)) 2 ∈ evolve s :=
          mem_evolve.2 (Or.inr (Or.inl (mem_rule2.2 ⟨by omega, hi, rfl⟩)))
        exact List.ne_nil_of_mem this
    | i + 2, hi, hlt =>
        have : merge3 s (i + 2) ∈ evolve s :=
          mem_evolve.2 (Or.inr (Or.inr (Or.inl
            (mem_rule3.2 ⟨i + 2, by omega, hlt, hi, rfl⟩))))
        exact List.ne_nil_of_mem this
  · exact absurd rfl hc
  · have hlt : i + 1 < s.length := lt_length_of_nth_ne h2
    have : merge4 s i ∈ evolve s :=
      mem_evolve.2 (Or.inr (Or.inr (Or.inr (mem_rule4.2 ⟨i, hlt, h1, h2, rfl⟩))))
    exact List.ne_nil_of_mem this

theorem final_iff_evolve_nil (s : State) : final s = true ↔ evolve s = [] := by
  constructor
  · exact final_evolve_nil
  · intro h
    by_contra hf
    exact evolve_ne_nil_of_not_final (by simpa using hf) h

/-- C3. For every state of length ≥ 1, the terminal test `final` holds exactly
when the rule engine `evolve` yields no successor. -/
theorem claim_c3_terminal_iff_no_successors (s : State) (h : 1 ≤ s.length) :
    final s = true ↔ evolve s = [] :=
  final_iff_evolve_nil s

/-- Witness for C3 at the terminal state `(1,)`. -/
theorem claim_c3_terminal_iff_no_successors_witness :
    final [1] = true ↔ evolve [1] = [] :=
  claim_c3_terminal_iff_no_successors [1] (by decide)

/-! ### The inverse index: correctness of `fibonacci_index` (C8) -/

theorem findFrom_found : ∀ (fuel j i : Nat), j ≤ i → i < j + fuel →
    findFrom fuel j (fibonacci i : Int) = i
  | 0, _, _, h1, h2 => absurd h2 (by omega)
  | fuel + 1, j, i, h1, h2 => by
      unfold findFrom
      rcases eq_or_lt_of_le h1 with he | hlt
      · subst he
        rw [if_neg (lt_irrefl _), if_pos rfl]
      · have hf : fibonacci j < fibonacci i := fib_strictMono hlt
        rw [if_pos (by exact_mod_cast hf)]
        exact findFrom_found fuel (j + 1) i hlt (by omega)

theorem findFrom_notfound {v : Int} (hv : ∀ j : Nat, (fibonacci j : Int) ≠ v) :
    ∀ (fuel j : Nat), findFrom fuel j v = -1
  | 0, _ => rfl
  | fuel + 1, j => by
      unfold findFrom
      split
      · exact findFrom_notfound hv fuel (j + 1)
      · rw [if_neg (hv j)]

theorem fibonacci_index_fibonacci (i : Nat) :
    fibonacci_index (fibonacci i) = i := by
  unfold fibonacci_index
  have ht : ((fibonacci i : Int)).toNat = fibonacci i := Int.toNat_natCast _
  rw [ht]
  exact findFrom_found (fibonacci i + 1) 0 i (Nat.zero_le i)
    (by have := fib_ge i; omega)

/-- C8. Codec round-trip: looking the `i`-th base value up through the inverse
index returns `i`, and any integer absent from the base sequence yields the
not-found sentinel `-1` (no exception: the function is total). -/
theorem claim_c8_codec_roundtrip :
    (∀ i : Nat, fibonacci_index (fibonacci i) = i) ∧
    (∀ v : Int, (∀ j : Nat, (fibonacci j : Int) ≠ v) → fibonacci_index v = -1) :=
  ⟨fibonacci_index_fibonacci, fun _ hv => findFrom_notfound hv _ 0⟩

/-- Witness for C8 at index 5 (`fibonacci 5 = 13`) and at the non-member 4. -/
theorem claim_c8_codec_roundtrip_witness :
    fibonacci_index (fibonacci 5) = 5 ∧ fibonacci_index 4 = -1 := by
  refine ⟨claim_c8_codec_roundtrip.1 5, claim_c8_codec_roundtrip.2 4 ?_⟩
  intro j
  match j with
  | 0 => decide
  | 1 => decide
  | 2 => decide
  | j + 3 =>
      have h3 : fibonacci 3 = 5 := rfl
      have h5 : (5 : Nat) ≤ fibonacci (j + 3) := by
        have := fib_mono (show 3 ≤ j + 3 by omega)
        omega
      intro he
      have : fibonacci (j + 3) = 4 := by exact_mod_cast he
      omega

/-! ### `parse` and malformed input (C7) -/

theorem parseLoop_invalid_token :
    ∀ (toks : List String) (st : List Nat),
      (∃ t ∈ toks, pyInt? t = none) →
      parseLoop toks st = Except.error () ∨ parseLoop toks st = Except.ok []
  | [], _, h => by simp at h
  | tok :: rest, st, h => by
      cases hp : pyInt? tok with
      | none => left; simp [parseLoop, hp]
      | some v =>
          by_cases hi : fibonacci_index v = -1
          · right; simp [parseLoop, hp, hi]
          · have hstep : parseLoop (tok :: rest) st
                = parseLoop rest (addValue st (fibonacci_index v).toNat) := by
              simp [parseLoop, hp, hi]
            rw [hstep]
            apply parseLoop_invalid_token rest
            obtain ⟨t, ht, htn⟩ := h
            rcases List.mem_cons.1 ht with he | hm
            · subst he; rw [hp] at htn; exact absurd htn (by simp)
            · exact ⟨t, hm, htn⟩

/-- C7, counterexample: the move text `"a"` consists of a single non-integer
token, yet `parse` raises (the uncaught `ValueError` from `int`, modelled as
`Except.error ()`) instead of signalling an invalid move as a normal result. -/
theorem claim_c7_counterexample :
    ("a" ∈ tokenize "a" ∧ pyInt? "a" = none) ∧ parse "a" = Except.error () :=
  ⟨⟨by decide, by decide⟩, by decide⟩

/-- C7, amended: on a move text containing a non-integer token, `parse` never
returns a successfully parsed state — it either raises `ValueError` (when the
bad token is reached) or returns the invalid-move sentinel `()` (when an
earlier token's value is absent from the base sequence). -/
theorem claim_c7_amended (move : String)
    (h : ∃ t ∈ tokenize move, pyInt? t = none) :
    parse move = Except.error () ∨ parse move = Except.ok [] :=
  parseLoop_invalid_token (tokenize move) [] h

/-- Witness for the amended C7 at the move text `"a"`. -/
theorem claim_c7_amended_witness :
    parse "a" = Except.error () ∨ parse "a" = Except.ok [] :=
  claim_c7_amended "a" ⟨"a", by decide, by decide⟩

/-! ### The bounds-checked rule engine agrees with `evolve` (C10) -/

theorem getO_eq : ∀ {s : State} {i : Nat}, i < s.length → getO s i = some (nth s i)
  | _ :: _, 0, _ => rfl
  | _ :: r, i + 1, h => getO_eq (s := r) (i := i) (by simpa using h)

theorem setO_eq {s : State} {i v : Nat} (h : i < s.length) :
    setO s i v = some (s.set i v) := if_pos h

theorem bumpAtO_eq {s : State} {j : Nat} (h : j ≤ s.length) :
    bumpAtO s j = some (bumpAt s j) := by
  unfold bumpAtO bumpAt
  rcases eq_or_lt_of_le h with he | hlt
  · rw [if_pos he, if_pos he]
  · rw [if_neg (by omega), if_neg (by omega), getO_eq hlt]
    show setO s j (nth s j + 1) = _
    rw [setO_eq hlt]

theorem rule1O_eq {s : State} (h : 1 ≤ s.length) : rule1O s = some (rule1 s) := by
  cases s with
  | nil => simp at h
  | cons c0 r =>
      show (do
        let c0' ← some c0
        if 2 ≤ c0' then
          let n1 ← setO (c0 :: r) 0 (c0' - 2)
          let n2 ← bumpAtO n1 1
          some [n2]
        else some []) = _
      by_cases hc : 2 ≤ c0
      · rw [rule1]
        simp only [Option.bind_eq_bind, Option.some_bind, if_pos hc,
          setO_eq (by simp : 0 < (c0 :: r).length)]
        rw [bumpAtO_eq (by simp)]
        simp [nth_cons_zero]
      · rw [rule1]
        simp [hc, nth_cons_zero]

theorem rule2O_eq {s : State} (h : 1 ≤ s.length) : rule2O s = some (rule2 s) := by
  by_cases h2 : 2 ≤ s.length
  · match s, h2 with
    | c0 :: c1 :: r, _ =>
        unfold rule2O
        rw [if_pos (by simp : 2 ≤ (c0 :: c1 :: r).length)]
        have hg : getO (c0 :: c1 :: r) 1 = some c1 := rfl
        rw [hg]
        by_cases hc : 2 ≤ c1
        · rw [rule2]
          simp only [Option.bind_eq_bind, Option.some_bind, if_pos hc,
            setO_eq (by simp : 1 < (c0 :: c1 :: r).length)]
          have hset : (c0 :: c1 :: r).set 1 (c1 - 2) = c0 :: (c1 - 2) :: r := rfl
          rw [hset]
          have hg0 : getO (c0 :: (c1 - 2) :: r) 0 = some c0 := rfl
          rw [hg0]
          simp only [Option.some_bind,
            setO_eq (by simp : 0 < (c0 :: (c1 - 2) :: r).length)]
          rw [bumpAtO_eq (by simp)]
          simp [nth_cons_succ, nth_cons_zero]
        · rw [rule2]
          simp [hc, nth_cons_succ, nth_cons_zero]
  · have hl : s.length ≤ 1 := by omega
    have hr2 : rule2 s = [] := by
      cases s with
      | nil => rfl
      | cons c0 r => cases r with
          | nil => rfl
          | cons c1 r' => simp at hl
    rw [hr2]
    unfold rule2O
    rw [if_neg h2]

theorem rule3OAux_eq {s : State} :
    ∀ is : List Nat, (∀ i ∈ is, 2 ≤ i ∧ i < s.length) →
      rule3OAux s is
        = some (is.filterMap
            (fun i => if 2 ≤ nth s i then some (merge3 s i) else none))
  | [], _ => rfl
  | i :: is, h => by
      obtain ⟨h2, hlt⟩ := h i (List.mem_cons_self i is)
      have hrest := rule3OAux_eq is (fun j hj => h j (List.mem_cons_of_mem i hj))
      show (do
        let ci ← getO s i
        if 2 ≤ ci then
          let n1 ← setO s i (ci - 2)
          let a ← getO n1 (i - 2)
          let n2 ← setO n1 (i - 2) (a + 1)
          let n3 ← bumpAtO n2 (i + 1)
          let rest ← rule3OAux s is
          some (n3 :: rest)
        else rule3OAux s is) = _
      rw [getO_eq hlt]
      by_cases hc : 2 ≤ nth s i
      · simp only [Option.bind_eq_bind, Option.some_bind, if_pos hc,
          setO_eq hlt]
        rw [getO_eq (by simp; omega)]
        simp only [Option.some_bind,
          setO_eq (by simp; omega : i - 2 < (s.set i (nth s i - 2)).length)]
        rw [bumpAtO_eq (by simp; omega), hrest]
        simp only [Option.some_bind, List.filterMap_cons, if_pos hc]
        rw [nth_set_ne _ (by omega : i ≠ i - 2)]
        rfl
      · rw [hrest]
        simp only [Option.bind_eq_bind, Option.some_bind, if_neg hc,
          List.filterMap_cons]

theorem rule3O_eq (s : State) : rule3O s = some (rule3 s) := by
  unfold rule3O rule3
  exact rule3OAux_eq _ (fun i hi => by
    have := List.mem_range'_1.1 hi
    omega)

theorem rule4OAux_eq {s : State} :
    ∀ is : List Nat, (∀ i ∈ is, i + 1 < s.length) →
      rule4OAux s is
        = some (is.filterMap
            (fun i => if nth s i ≠ 0 ∧ nth s (i + 1) ≠ 0
              then some (merge4 s i) else none))
  | [], _ => rfl
  | i :: is, h => by
      have hlt := h i (List.mem_cons_self i is)
      have hrest := rule4OAux_eq is (fun j hj => h j (List.mem_cons_of_mem i hj))
      show (do
        let a ← getO s i
        let b ← getO s (i + 1)
        if a ≠ 0 ∧ b ≠ 0 then
          let n1 ← setO s i (a - 1)
          let n2 ← setO n1 (i + 1) (b - 1)
          let n3 ← bumpAtO n2 (i + 2)
          let rest ← rule4OAux s is
          some (n3 :: rest)
        else rule4OAux s is) = _
      rw [getO_eq (by omega), getO_eq hlt]
      by_cases hc : nth s i ≠ 0 ∧ nth s (i + 1) ≠ 0
      · simp only [Option.bind_eq_bind, Option.some_bind, if_pos hc,
          setO_eq (by omega : i < s.length)]
        have hn : nth (s.set i (nth s i - 1)) (i + 1) = nth s (i + 1) :=
          nth_set_ne _ (by omega)
        rw [show setO (s.set i (nth s i - 1)) (i + 1) (nth s (i + 1) - 1)
              = some ((s.set i (nth s i - 1)).set (i + 1) (nth s (i + 1) - 1))
            from setO_eq (by simp; omega)]
        simp only [Option.some_bind]
        rw [bumpAtO_eq (by simp; omega), hrest]
        simp only [Option.some_bind, List.filterMap_cons, if_pos hc]
        rfl
      · rw [hrest]
        simp only [Option.bind_eq_bind, Option.some_bind, if_neg hc,
          List.filterMap_cons]

theorem rule4O_eq (s : State) : rule4O s = some (rule4 s) := by
  unfold rule4O rule4
  exact rule4OAux_eq _ (fun i hi => by
    have := List.mem_range'_1.1 hi
    omega)

theorem evolveOpt_eq {s : State} (h : 1 ≤ s.length) :
    evolveOpt s = some (evolve s) := by
  unfold evolveOpt evolve
  rw [rule1O_eq h, rule2O_eq h, rule3O_eq, rule4O_eq]
  rfl

/-- C10. `evolve` requires a nonempty state: on the empty tuple — exactly the
sentinel `parse` returns for invalid input — it raises `IndexError` at the
unguarded `state[0]` access (modelled: `evolveOpt [] = none`); for every state
of length ≥ 1 all index accesses are in bounds (`evolveOpt` succeeds and
agrees with `evolve`) and every yielded successor is again nonempty. -/
theorem claim_c10_empty_state_safety :
    evolveOpt [] = none ∧
    (∀ (tok : String) (rest : List String) (st : List Nat) (v : Int),
        pyInt? tok = some v → fibonacci_index v = -1 →
        parseLoop (tok :: rest) st = Except.ok []) ∧
    (∀ s : State, 1 ≤ s.length →
        evolveOpt s = some (evolve s) ∧ ∀ t ∈ evolve s, 1 ≤ t.length) := by
  refine ⟨rfl, ?_, fun s hs => ⟨evolveOpt_eq hs, fun _ ht => evolve_length ht⟩⟩
  intro tok rest st v hp hi
  simp [parseLoop, hp, hi]

/-- Witness for C10: the invalid token `"4"` makes `parse` return the empty
sentinel, and the move `(2,) → (0,1)` is produced with all accesses checked. -/
theorem claim_c10_empty_state_safety_witness :
    parseLoop ["4"] [] = Except.ok [] ∧ evolveOpt [2] = some (evolve [2]) ∧
      1 ≤ ([0, 1] : State).length :=
  ⟨claim_c10_empty_state_safety.2.1 "4" [] [] 4 (by decide) (by decide),
   (claim_c10_empty_state_safety.2.2 [2] (by decide)).1,
   (claim_c10_empty_state_safety.2.2 [2] (by decide)).2 [0, 1] (by decide)⟩

/-! ### Moves keep the last entry positive -/

theorem nth_append_last : ∀ (x : List Nat) (y : Nat), nth (x ++ [y]) x.length = y
  | [], _ => rfl
  | _ :: r, y => nth_append_last r y

theorem lastPos_ne_nil {s : State} (h : lastPos s) : s ≠ [] := by
  intro he
  subst he
  exact h (nth_nil 0)

theorem lastPos_bumpAt {x : State} {j : Nat} (hL : 1 ≤ x.length) (hj : j ≤ x.length)
    (h : j < x.length - 1 → nth x (x.length - 1) ≠ 0) : lastPos (bumpAt x j) := by
  unfold bumpAt lastPos
  rcases eq_or_lt_of_le hj with he | hlt
  · rw [if_pos he]
    have hlen : (x ++ [1]).length = x.length + 1 := by simp
    rw [hlen]
    have : x.length + 1 - 1 = x.length := by omega
    rw [this, nth_append_last]
    omega
  · rw [if_neg (by omega)]
    have hlen : (x.set j (nth x j + 1)).length = x.length := by simp
    rw [hlen]
    by_cases hje : j = x.length - 1
    · subst hje
      rw [nth_set_self _ hlt]
      omega
    · rw [nth_set_ne _ hje]
      exact h (by omega)

theorem evolve_lastPos {s t : State} (hs : lastPos s) (ht : t ∈ evolve s) :
    lastPos t := by
  have hL : 1 ≤ s.length := by
    have := lastPos_ne_nil hs
    cases s with
    | nil => exact absurd rfl this
    | cons c r => simp
  rcases mem_evolve.1 ht with h1 | h2 | h3 | h4
  · obtain ⟨_, _, hteq⟩ := mem_rule1.1 h1
    rw [hteq]
    refine lastPos_bumpAt (by simpa using hL) (by simp; omega) ?_
    simp only [List.length_set]
    intro hlt
    rw [nth_set_ne _ (by omega)]
    exact hs
  · obtain ⟨hl, _, hteq⟩ := mem_rule2.1 h2
    rw [hteq]
    refine lastPos_bumpAt (by simp; omega) (by simp; omega) ?_
    simp only [List.length_set]
    intro hlt
    rw [nth_set_ne _ (by omega), nth_set_ne _ (by omega)]
    exact hs
  · obtain ⟨i, h2i, hlt, _, hteq⟩ := mem_rule3.1 h3
    rw [hteq]
    unfold merge3
    refine lastPos_bumpAt (by simp; omega) (by simp; omega) ?_
    simp only [List.length_set]
    intro hlt'
    rw [nth_set_ne _ (by omega), nth_set_ne _ (by omega)]
    exact hs
  · obtain ⟨i, hlt, _, _, hteq⟩ := mem_rule4.1 h4
    rw [hteq]
    unfold merge4
    refine lastPos_bumpAt (by simp; omega) (by simp; omega) ?_
    simp only [List.length_set]
    intro hlt'
    rw [nth_set_ne _ (by omega), nth_set_ne _ (by omega)]
    exact hs

theorem lastPos_single {n : Nat} (h : 1 ≤ n) : lastPos [n] := by
  show nth [n] 0 ≠ 0
  rw [nth_cons_zero]
  omega

theorem reachable_lastPos {n : Nat} {s : State} (hn : 1 ≤ n)
    (h : Reachable n s) : lastPos s := by
  induction h with
  | refl => exact lastPos_single hn
  | tail _ hstep ih => exact evolve_lastPos ih hstep

/-! ### Size bounds on reachable states -/

theorem nth_le_wsum : ∀ (s : State) (k i : Nat), nth s i ≤ wsum fibonacci k s
  | [], _, i => by rw [nth_nil]; exact Nat.zero_le _
  | c :: r, k, 0 => by
      rw [nth_cons_zero]
      calc c = c * 1 := by ring
      _ ≤ c * fibonacci k := Nat.mul_le_mul_left c (fib_pos k)
      _ ≤ c * fibonacci k + wsum fibonacci (k + 1) r := Nat.le_add_right _ _
  | c :: r, k, i + 1 => by
      rw [nth_cons_succ]
      calc nth r i ≤ wsum fibonacci (k + 1) r := nth_le_wsum r (k + 1) i
      _ ≤ c * fibonacci k + wsum fibonacci (k + 1) r := Nat.le_add_left _ _

theorem nth_le_evaluate (s : State) (i : Nat) : nth s i ≤ evaluate s :=
  nth_le_wsum s 0 i

theorem wsum_fib_ge_of_lastPos :
    ∀ (s : State) (k : Nat), lastPos s →
      fibonacci (k + s.length - 1) ≤ wsum fibonacci k s
  | [], _, h => absurd (nth_nil 0) h
  | [c], k, h => by
      have hc : c ≠ 0 := by
        have : nth [c] 0 ≠ 0 := h
        rwa [nth_cons_zero] at this
      show fibonacci (k + 1 - 1) ≤ c * fibonacci k + 0
      have : k + 1 - 1 = k := by omega
      rw [this]
      calc fibonacci k = 1 * fibonacci k := by ring
      _ ≤ c * fibonacci k := Nat.mul_le_mul_right _ (by omega)
      _ ≤ c * fibonacci k + 0 := Nat.le_add_right _ _
  | c :: c' :: r, k, h => by
      have h' : lastPos (c' :: r) := by
        show nth (c' :: r) ((c' :: r).length - 1) ≠ 0
        have he : (c :: c' :: r).length - 1 = ((c' :: r).length - 1) + 1 := by
          simp
        have := h
        unfold lastPos at this
        rw [he, nth_cons_succ] at this
        exact this
      have ih := wsum_fib_ge_of_lastPos (c' :: r) (k + 1) h'
      have hlen : k + 1 + (c' :: r).length - 1 = k + (c :: c' :: r).length - 1 := by
        simp; omega
      rw [hlen] at ih
      calc fibonacci (k + (c :: c' :: r).length - 1)
          ≤ wsum fibonacci (k + 1) (c' :: r) := ih
      _ ≤ c * fibonacci k + wsum fibonacci (k + 1) (c' :: r) := Nat.le_add_left _ _

theorem reachable_length_le {n : Nat} {s : State} (hn : 1 ≤ n)
    (h : Reachable n s) : s.length ≤ n := by
  have hp := reachable_lastPos hn h
  have he := reachable_evaluate h
  have hge := wsum_fib_ge_of_lastPos s 0 hp
  have hne := lastPos_ne_nil hp
  have hlen : 1 ≤ s.length := by
    cases s with
    | nil => exact absurd rfl hne
    | cons c r => simp
  have hfib := fib_ge (s.length - 1)
  have : s.length - 1 + 1 = s.length := by omega
  rw [this] at hfib
  have : 0 + s.length - 1 = s.length - 1 := by omega
  rw [this] at hge
  unfold evaluate at he
  omega

theorem reachable_nth_le {n : Nat} {s : State} (h : Reachable n s) (i : Nat) :
    nth s i ≤ n := by
  have := nth_le_evaluate s i
  rw [reachable_evaluate h] at this
  exact this

/-! ### Zeckendorf bounds and uniqueness of the terminal form -/

theorem wsum_fib_lt_of_final :
    ∀ (s : State) (k last : Nat), finalFrom last s = true →
      wsum fibonacci k s + prevFib k ≤ fibonacci (k + s.length)
  | [], k, _, _ => by
      show 0 + prevFib k ≤ fibonacci k
      have := prevFib_le k
      omega
  | 0 :: r, k, last, h => by
      have hr : finalFrom 0 r = true := by
        unfold finalFrom at h
        split at h
        · exact absurd h (by simp)
        · exact h
      have ih := wsum_fib_lt_of_final r (k + 1) 0 hr
      have hp : prevFib (k + 1) = fibonacci k := rfl
      have hple := prevFib_le k
      have hlen : k + 1 + r.length = k + (0 :: r).length := by simp; omega
      rw [hp, hlen] at ih
      show 0 * fibonacci k + wsum fibonacci (k + 1) r + prevFib k
        ≤ fibonacci (k + (0 :: r).length)
      omega
  | (c + 1) :: r, k, last, h => by
      have hc : c = 0 := by
        unfold finalFrom at h
        split at h
        · exact absurd h (by simp)
        · rename_i hg
          push_neg at hg
          omega
      subst hc
      have hr : finalFrom 1 r = true := by
        unfold finalFrom at h
        split at h
        · exact absurd h (by simp)
        · exact h
      cases r with
      | nil =>
          show 1 * fibonacci k + 0 + prevFib k ≤ fibonacci (k + 1)
          have := fib_succ k
          omega
      | cons c' r2 =>
          have hc' : c' = 0 := by
            unfold finalFrom at hr
            split at hr
            · exact absurd hr (by simp)
            · rename_i hg2
              push_neg at hg2
              have := hg2.2
              omega
          subst hc'
          have hr2 : finalFrom 0 r2 = true := by
            unfold finalFrom at hr
            split at hr
            · exact absurd hr (by simp)
            · exact hr
          have ih := wsum_fib_lt_of_final r2 (k + 2) 0 hr2
          have hp2 : prevFib (k + 2) = fibonacci (k + 1) := rfl
          have hlen : k + 2 + r2.length = k + (1 :: 0 :: r2).length := by
            simp; omega
          rw [hp2, hlen] at ih
          have hfs := fib_succ k
          show 1 * fibonacci k
              + (0 * fibonacci (k + 1) + wsum fibonacci (k + 2) r2)
              + prevFib k ≤ fibonacci (k + (1 :: 0 :: r2).length)
          omega

theorem evaluate_lt_of_final {s : State} (h : final s = true) :
    evaluate s < fibonacci s.length := by
  have hb := wsum_fib_lt_of_final s 0 0 h
  have hp : prevFib 0 = 1 := rfl
  rw [hp, Nat.zero_add] at hb
  unfold evaluate
  omega

theorem finalFrom_append :
    ∀ (x y : List Nat) (last : Nat),
      finalFrom last (x ++ y) = true → finalFrom last x = true
  | [], _, _, _ => rfl
  | c :: r, y, last, h => by
      have hxy : finalFrom last ((c :: r) ++ y)
          = if 1 < c ∨ (c ≠ 0 ∧ last ≠ 0) then false
            else finalFrom c (r ++ y) := rfl
      rw [hxy] at h
      split at h
      · exact absurd h (by simp)
      · rename_i hg
        unfold finalFrom
        rw [if_neg hg]
        exact finalFrom_append r y c h

theorem final_unique_len :
    ∀ (m : Nat) (s t : State), s.length = m → t.length = m →
      final s = true → final t = true → evaluate s = evaluate t → s = t
  | 0, s, t, hs, ht, _, _, _ => by
      rw [List.length_eq_zero.1 hs, List.length_eq_zero.1 ht]
  | m + 1, s, t, hsl, htl, hs, ht, he => by
      rcases s.eq_nil_or_concat' with rfl | ⟨s0, a, rfl⟩
      · simp at hsl
      rcases t.eq_nil_or_concat' with rfl | ⟨t0, b, rfl⟩
      · simp at htl
      have hs0l : s0.length = m := by simp at hsl; omega
      have ht0l : t0.length = m := by simp at htl; omega
      have hs0 : final s0 = true := finalFrom_append s0 [a] 0 hs
      have ht0 : final t0 = true := finalFrom_append t0 [b] 0 ht
      have hes : evaluate (s0 ++ [a]) = evaluate s0 + a * fibonacci m := by
        unfold evaluate
        rw [wsum_append]
        show _ + (a * fibonacci (0 + s0.length) + 0) = _
        rw [Nat.zero_add, hs0l]
        omega
      have het : evaluate (t0 ++ [b]) = evaluate t0 + b * fibonacci m := by
        unfold evaluate
        rw [wsum_append]
        show _ + (b * fibonacci (0 + t0.length) + 0) = _
        rw [Nat.zero_add, ht0l]
        omega
      have ha : a ≤ 1 := by
        have := finalFrom_le1 (s0 ++ [a]) 0 hs s0.length
        rwa [nth_append_last] at this
      have hb : b ≤ 1 := by
        have := finalFrom_le1 (t0 ++ [b]) 0 ht t0.length
        rwa [nth_append_last] at this
      have hbs : evaluate s0 < fibonacci m := by
        have := evaluate_lt_of_final hs0
        rwa [hs0l] at this
      have hbt : evaluate t0 < fibonacci m := by
        have := evaluate_lt_of_final ht0
        rwa [ht0l] at this
      have hab : a = b := by
        rw [hes, het] at he
        interval_cases a <;> interval_cases b <;> omega
      subst hab
      have he0 : evaluate s0 = evaluate t0 := by
        rw [hes, het] at he
        omega
      rw [final_unique_len m s0 t0 hs0l ht0l hs0 ht0 he0]

theorem final_unique {s t : State} (hs : final s = true) (ht : final t = true)
    (hps : lastPos s) (hpt : lastPos t) (he : evaluate s = evaluate t) :
    s = t := by
  have hlen : s.length = t.length := by
    by_contra hne
    rcases Nat.lt_or_ge s.length t.length with hlt | hge
    · have h1 : evaluate s < fibonacci s.length := evaluate_lt_of_final hs
      have h2 := wsum_fib_ge_of_lastPos t 0 hpt
      rw [Nat.zero_add] at h2
      have h3 : fibonacci s.length ≤ fibonacci (t.length - 1) :=
        fib_mono (by omega)
      unfold evaluate at *
      omega
    · have hlt : t.length < s.length := by omega
      have h1 : evaluate t < fibonacci t.length := evaluate_lt_of_final ht
      have h2 := wsum_fib_ge_of_lastPos s 0 hps
      rw [Nat.zero_add] at h2
      have h3 : fibonacci t.length ≤ fibonacci (s.length - 1) :=
        fib_mono (by omega)
      unfold evaluate at *
      omega
  exact final_unique_len s.length s t rfl hlen.symm hs ht he

/-! ### Every reachable state reaches a terminal state -/

theorem wsum_pow3_le :
    ∀ (s : State) (k b : Nat), (∀ c ∈ s, c ≤ b) →
      wsum (fun i => 3 ^ i) k s + b * 3 ^ k ≤ b * 3 ^ (k + s.length)
  | [], k, b, _ => by
      show 0 + b * 3 ^ k ≤ b * 3 ^ k
      omega
  | c :: r, k, b, h => by
      have ih := wsum_pow3_le r (k + 1) b (fun x hx => h x (List.mem_cons_of_mem c hx))
      have hc : c ≤ b := h c (List.mem_cons_self c r)
      have hcx : c * 3 ^ k ≤ b * 3 ^ k := Nat.mul_le_mul_right _ hc
      have hpow : (3 : Nat) ^ (k + 1) = 3 * 3 ^ k := by ring
      have hml : b * 3 ^ (k + 1) = 3 * (b * 3 ^ k) := by rw [hpow]; ring
      have hlen : k + 1 + r.length = k + (c :: r).length := by simp; omega
      rw [hlen] at ih
      show c * 3 ^ k + wsum (fun i => 3 ^ i) (k + 1) r + b * 3 ^ k
        ≤ b * 3 ^ (k + (c :: r).length)
      omega

theorem pot3_reachable_lt {n : Nat} {s : State} (hn : 1 ≤ n)
    (h : Reachable n s) : pot3 s < n * 3 ^ n := by
  have hb := wsum_pow3_le s 0 n (fun c hc => by
    obtain ⟨i, hi⟩ := List.get_of_mem hc
    have := reachable_nth_le h i
    have hnth : nth s i = c := by
      subst hi
      show s.getD i 0 = s.get i
      rw [List.getD_eq_getElem?_getD, List.getElem?_eq_getElem i.isLt]
      simp
    omega)
  have hlen := reachable_length_le hn h
  have hmono : (3 : Nat) ^ s.length ≤ 3 ^ n :=
    Nat.pow_le_pow_right (by norm_num) hlen
  have : n * 3 ^ s.length ≤ n * 3 ^ n := Nat.mul_le_mul_left n hmono
  have h30 : (3 : Nat) ^ 0 = 1 := rfl
  rw [Nat.zero_add, h30] at hb
  unfold pot3
  omega

theorem reach_terminal_fuel :
    ∀ (fuel n : Nat), 1 ≤ n → ∀ s : State, Reachable n s →
      n * 3 ^ n ≤ pot3 s + fuel →
      ∃ z, Relation.ReflTransGen evolveStep s z ∧ final z = true
  | 0, n, hn, s, hr, hf => absurd hf (by have := pot3_reachable_lt hn hr; omega)
  | fuel + 1, n, hn, s, hr, hf => by
      by_cases hfin : final s = true
      · exact ⟨s, Relation.ReflTransGen.refl, hfin⟩
      · have hne : evolve s ≠ [] :=
          evolve_ne_nil_of_not_final (by simpa using hfin)
        obtain ⟨t, htm⟩ := List.exists_mem_of_ne_nil _ hne
        have hrt : Reachable n t := Relation.ReflTransGen.tail hr htm
        have hpt := evolve_pot3 htm
        obtain ⟨z, hpath, hz⟩ :=
          reach_terminal_fuel fuel n hn t hrt (by omega)
        exact ⟨z, Relation.ReflTransGen.head htm hpath, hz⟩

theorem exists_final_reachable {n : Nat} (hn : 1 ≤ n) :
    ∃ z, Reachable n z ∧ final z = true := by
  obtain ⟨z, hpath, hz⟩ :=
    reach_terminal_fuel (n * 3 ^ n) n hn [n] Relation.ReflTransGen.refl
      (by omega)
  exact ⟨z, hpath, hz⟩

/-- The unique reachable terminal state: any two reachable terminal states for
the same `n` coincide. -/
theorem final_reachable_unique {n : Nat} {s t : State} (hn : 1 ≤ n)
    (hrs : Reachable n s) (hrt : Reachable n t)
    (hs : final s = true) (ht : final t = true) : s = t :=
  final_unique hs ht (reachable_lastPos hn hrs) (reachable_lastPos hn hrt)
    (by rw [reachable_evaluate hrs, reachable_evaluate hrt])

/-! ### Association-list dictionary lemmas -/

theorem glookup_none_iff : ∀ {G : Graph} {s : State},
    glookup G s = none ↔ s ∉ keys G := by
  intro G
  induction G with
  | nil => intro s; simp [glookup, keys]
  | cons p rest ih =>
      intro s
      obtain ⟨k, v⟩ := p
      show (if k = s then some v else glookup rest s) = none ↔ _
      by_cases hk : k = s
      · subst hk
        simp [keys]
      · rw [if_neg hk, ih]
        have hkeys : keys ((k, v) :: rest) = k :: keys rest := rfl
        rw [hkeys]
        constructor
        · intro hns hmem
          rcases List.mem_cons.1 hmem with he | hm
          · exact hk he.symm
          · exact hns hm
        · intro hns hmem
          exact hns (List.mem_cons_of_mem _ hmem)

theorem mem_keys_of_glookup {G : Graph} {s : State} {v : List State}
    (h : glookup G s = some v) : s ∈ keys G := by
  by_contra hc
  rw [← glookup_none_iff] at hc
  rw [h] at hc
  exact Option.noConfusion hc

theorem glookup_isSome_of_mem {G : Graph} {s : State} (h : s ∈ keys G) :
    ∃ v, glookup G s = some v := by
  cases hg : glookup G s with
  | none => exact absurd (glookup_none_iff.1 hg) (by simp [h])
  | some v => exact ⟨v, rfl⟩

theorem containsKey_iff {G : Graph} {s : State} :
    containsKey G s = true ↔ s ∈ keys G := by
  unfold containsKey
  constructor
  · intro h
    cases hg : glookup G s with
    | none => rw [hg] at h; simp at h
    | some v => exact mem_keys_of_glookup hg
  · intro h
    obtain ⟨v, hv⟩ := glookup_isSome_of_mem h
    rw [hv]
    rfl

theorem keys_appendChild : ∀ (G : Graph) (s c : State),
    keys (appendChild G s c) = keys G
  | [], _, _ => rfl
  | (k, v) :: rest, s, c => by
      show keys (if k = s then (k, v ++ [c]) :: rest else
        (k, v) :: appendChild rest s c) = _
      by_cases hk : k = s
      · rw [if_pos hk]; rfl
      · rw [if_neg hk]
        show k :: keys (appendChild rest s c) = k :: keys rest
        rw [keys_appendChild rest s c]

theorem glookup_appendChild_self : ∀ {G : Graph} {s : State} {v : List State}
    (c : State), glookup G s = some v →
      glookup (appendChild G s c) s = some (v ++ [c])
  | [], s, v, c, h => by simp [glookup] at h
  | (k, w) :: rest, s, v, c, h => by
      show glookup (if k = s then (k, w ++ [c]) :: rest else
        (k, w) :: appendChild rest s c) s = _
      by_cases hk : k = s
      · rw [if_pos hk]
        show (if k = s then some (w ++ [c]) else _) = _
        rw [if_pos hk]
        have hv : w = v := by
          have : (if k = s then some w else glookup rest s) = some v := h
          rw [if_pos hk] at this
          injection this
        rw [hv]
      · rw [if_neg hk]
        show (if k = s then _ else glookup (appendChild rest s c) s) = _
        rw [if_neg hk]
        have hrest : glookup rest s = some v := by
          have : (if k = s then some w else glookup rest s) = some v := h
          rwa [if_neg hk] at this
        exact glookup_appendChild_self c hrest

theorem glookup_appendChild_ne : ∀ (G : Graph) {s k : State} (c : State),
    k ≠ s → glookup (appendChild G s c) k = glookup G k
  | [], _, _, _, _ => rfl
  | (k', w) :: rest, s, k, c, h => by
      show glookup (if k' = s then (k', w ++ [c]) :: rest else
        (k', w) :: appendChild rest s c) k = _
      by_cases hk : k' = s
      · rw [if_pos hk]
        show (if k' = k then some (w ++ [c]) else glookup rest k)
          = (if k' = k then some w else glookup rest k)
        rw [if_neg (by rw [hk]; exact fun he => h he.symm),
          if_neg (by rw [hk]; exact fun he => h he.symm)]
      · rw [if_neg hk]
        show (if k' = k then some w else glookup (appendChild rest s c) k)
          = (if k' = k then some w else glookup rest k)
        by_cases hk' : k' = k
        · rw [if_pos hk', if_pos hk']
        · rw [if_neg hk', if_neg hk']
          exact glookup_appendChild_ne rest c h

theorem glookup_append_left : ∀ {G : Graph} (G' : Graph) {k : State}
    {v : List State}, glookup G k = some v → glookup (G ++ G') k = some v
  | [], _, k, v, h => by simp [glookup] at h
  | (k', w) :: rest, G', k, v, h => by
      show (if k' = k then some w else glookup (rest ++ G') k) = some v
      have hh : (if k' = k then some w else glookup rest k) = some v := h
      by_cases hk : k' = k
      · rwa [if_pos hk] at hh ⊢
      · rw [if_neg hk] at hh ⊢
        exact glookup_append_left G' hh

theorem glookup_append_right : ∀ {G : Graph} (G' : Graph) {k : State},
    glookup G k = none → glookup (G ++ G') k = glookup G' k
  | [], _, _, _ => rfl
  | (k', w) :: rest, G', k, h => by
      have hh : (if k' = k then some w else glookup rest k) = none := h
      show (if k' = k then some w else glookup (rest ++ G') k) = _
      by_cases hk : k' = k
      · rw [if_pos hk] at hh; exact Option.noConfusion hh
      · rw [if_neg hk] at hh
        rw [if_neg hk]
        exact glookup_append_right G' hh

theorem keys_append (G G' : Graph) : keys (G ++ G') = keys G ++ keys G' := by
  unfold keys
  exact List.map_append _ _ _

theorem glookup_of_mem_nodup : ∀ {G : Graph} {s : State} {v : List State},
    (keys G).Nodup → (s, v) ∈ G → glookup G s = some v := by
  intro G
  induction G with
  | nil => intro s v _ h; simp at h
  | cons p rest ih =>
      intro s v hnd hmem
      obtain ⟨k, w⟩ := p
      have hnd' : k ∉ keys rest ∧ (keys rest).Nodup := by
        have : keys ((k, w) :: rest) = k :: keys rest := rfl
        rw [this] at hnd
        exact ⟨(List.nodup_cons.1 hnd).1, (List.nodup_cons.1 hnd).2⟩
      rcases List.mem_cons.1 hmem with he | hm
      · injection he with h1 h2
        subst h1; subst h2
        show (if s = s then some v else glookup rest s) = some v
        rw [if_pos rfl]
      · have hs : s ∈ keys rest := by
          unfold keys
          exact List.mem_map.2 ⟨(s, v), hm, rfl⟩
        have hk : k ≠ s := fun he => hnd'.1 (he ▸ hs)
        show (if k = s then some w else glookup rest s) = some v
        rw [if_neg hk]
        exact ih hnd'.2 hm

theorem child_mem_flatten : ∀ {G : Graph} {s c : State} {v : List State},
    glookup G s = some v → c ∈ v → c ∈ (G.map Prod.snd).flatten := by
  intro G
  induction G with
  | nil => intro s c v h; simp [glookup] at h
  | cons p rest ih =>
      intro s c v h hc
      obtain ⟨k, w⟩ := p
      have hh : (if k = s then some w else glookup rest s) = some v := h
      show c ∈ w ++ (rest.map Prod.snd).flatten
      by_cases hk : k = s
      · rw [if_pos hk] at hh
        injection hh with hw
        subst hw
        exact List.mem_append_left _ hc
      · rw [if_neg hk] at hh
        exact List.mem_append_right _ (ih hh hc)

theorem flatten_child : ∀ {G : Graph} {c : State},
    c ∈ (G.map Prod.snd).flatten → ∃ s v, (s, v) ∈ G ∧ c ∈ v := by
  intro G
  induction G with
  | nil => intro c h; simp at h
  | cons p rest ih =>
      intro c h
      obtain ⟨k, w⟩ := p
      rcases List.mem_append.1 h with hl | hr
      · exact ⟨k, w, List.mem_cons_self _ _, hl⟩
      · obtain ⟨s, v, hm, hc⟩ := ih hr
        exact ⟨s, v, List.mem_cons_of_mem _ hm, hc⟩

theorem mem_nodesOf {G : Graph} {x : State} :
    x ∈ nodesOf G ↔ x ∈ keys G ∨ x ∈ (G.map Prod.snd).flatten := by
  unfold nodesOf keys
  rw [List.mem_dedup, List.mem_append]

/-! ### Specification of `genVisit` (the inner loop of `generate`) -/

theorem genVisit_spec (s : State) :
    ∀ (cs : List State) (G : Graph) (opts : List State), s ∈ keys G →
      ∃ fresh : List State,
        keys (genVisit s cs G opts).1 = keys G ++ fresh ∧
        (genVisit s cs G opts).2 = opts ++ fresh ∧
        fresh.Nodup ∧
        (∀ f ∈ fresh, f ∈ cs ∧ final f = false ∧ f ∉ keys G ∧
          glookup (genVisit s cs G opts).1 f = some []) ∧
        (∀ v, glookup G s = some v →
          glookup (genVisit s cs G opts).1 s = some (v ++ cs)) ∧
        (∀ k, k ≠ s → k ∈ keys G →
          glookup (genVisit s cs G opts).1 k = glookup G k) ∧
        (∀ c ∈ cs, final c = true ∨ c ∈ keys (genVisit s cs G opts).1)
  | [], G, opts, _ => by
      refine ⟨[], by simp [genVisit], by simp [genVisit], List.nodup_nil,
        by simp, ?_, by simp [genVisit], by simp⟩
      intro v hv
      simpa [genVisit] using hv
  | c :: cs, G, opts, hs => by
      have hkeys1 : keys (appendChild G s c) = keys G := keys_appendChild G s c
      have hs1 : s ∈ keys (appendChild G s c) := by rw [hkeys1]; exact hs
      by_cases hcond : (final c || containsKey (appendChild G s c) c) = true
      · have hred : genVisit s (c :: cs) G opts
            = genVisit s cs (appendChild G s c) opts := by
          show (let G1 := appendChild G s c
            if final c || containsKey G1 c then genVisit s cs G1 opts
            else genVisit s cs (G1 ++ [(c, [])]) (opts ++ [c])) = _
          rw [if_pos hcond]
        obtain ⟨fresh, h1, h2, h3, h4, h5, h6, h7⟩ :=
          genVisit_spec s cs (appendChild G s c) opts hs1
        rw [hred]
        refine ⟨fresh, by rw [h1, hkeys1], h2, h3, ?_, ?_, ?_, ?_⟩
        · intro f hf
          obtain ⟨hf1, hf2, hf3, hf4⟩ := h4 f hf
          exact ⟨List.mem_cons_of_mem _ hf1, hf2, by rwa [hkeys1] at hf3, hf4⟩
        · intro v hv
          have := h5 (v ++ [c]) (glookup_appendChild_self c hv)
          rwa [List.append_assoc, List.singleton_append] at this
        · intro k hk hkG
          rw [h6 k hk (by rwa [hkeys1]), glookup_appendChild_ne G c hk]
        · intro c' hc'
          rcases List.mem_cons.1 hc' with he | hm
          · subst he
            rw [Bool.or_eq_true] at hcond
            rcases hcond with hfin | hmem
            · exact Or.inl hfin
            · refine Or.inr ?_
              rw [h1, hkeys1]
              exact List.mem_append_left _ (by
                rw [← hkeys1]; exact containsKey_iff.1 hmem)
          · exact h7 c' hm
      · have hred : genVisit s (c :: cs) G opts
            = genVisit s cs (appendChild G s c ++ [(c, [])]) (opts ++ [c]) := by
          show (let G1 := appendChild G s c
            if final c || containsKey G1 c then genVisit s cs G1 opts
            else genVisit s cs (G1 ++ [(c, [])]) (opts ++ [c])) = _
          rw [if_neg hcond]
        rw [Bool.or_eq_true, not_or, Bool.not_eq_true, Bool.not_eq_true] at hcond
        have hfin : final c = false := hcond.1
        have hnomem : containsKey (appendChild G s c) c = false := hcond.2
        have hcG : c ∉ keys G := by
          rw [← hkeys1]
          intro hmem
          rw [containsKey_iff.2 hmem] at hnomem
          exact Bool.noConfusion hnomem
        have hclk : glookup (appendChild G s c) c = none := by
          rw [glookup_none_iff, hkeys1]
          exact hcG
        have hkeys2 : keys (appendChild G s c ++ [(c, [])]) = keys G ++ [c] := by
          rw [keys_append, hkeys1]
          rfl
        have hs2 : s ∈ keys (appendChild G s c ++ [(c, [])]) := by
          rw [hkeys2]
          exact List.mem_append_left _ hs
        obtain ⟨fresh, h1, h2, h3, h4, h5, h6, h7⟩ :=
          genVisit_spec s cs (appendChild G s c ++ [(c, [])]) (opts ++ [c]) hs2
        rw [hred]
        have hcs : c ≠ s := fun he => hcG (he ▸ hs)
        have hlkc2 : glookup (appendChild G s c ++ [(c, [])]) c = some [] := by
          rw [glookup_append_right _ hclk]
          show (if c = c then some [] else none) = some []
          rw [if_pos rfl]
        have hckeys2 : c ∈ keys (appendChild G s c ++ [(c, [])]) := by
          rw [hkeys2]
          exact List.mem_append_right _ (List.mem_singleton.2 rfl)
        refine ⟨c :: fresh, ?_, ?_, ?_, ?_, ?_, ?_, ?_⟩
        · rw [h1, hkeys2, List.append_assoc, List.singleton_append]
        · rw [h2, List.append_assoc, List.singleton_append]
        · refine List.nodup_cons.2 ⟨?_, h3⟩
          intro hcf
          exact (h4 c hcf).2.2.1 hckeys2
        · intro f hf
          rcases List.mem_cons.1 hf with he | hm
          · rw [he]
            refine ⟨List.mem_cons_self _ _, hfin, hcG, ?_⟩
            rw [h6 c hcs hckeys2]
            exact hlkc2
          · obtain ⟨hf1, hf2, hf3, hf4⟩ := h4 f hm
            refine ⟨List.mem_cons_of_mem _ hf1, hf2, ?_, hf4⟩
            intro hfG
            exact hf3 (by rw [hkeys2]; exact List.mem_append_left _ hfG)
        · intro v hv
          have hv1 : glookup (appendChild G s c) s = some (v ++ [c]) :=
            glookup_appendChild_self c hv
          have hv2 : glookup (appendChild G s c ++ [(c, [])]) s = some (v ++ [c]) :=
            glookup_append_left _ hv1
          have := h5 (v ++ [c]) hv2
          rwa [List.append_assoc, List.singleton_append] at this
        · intro k hk hkG
          have hlk1 : glookup (appendChild G s c) k = glookup G k :=
            glookup_appendChild_ne G c hk
          obtain ⟨v, hv⟩ := glookup_isSome_of_mem hkG
          have hlk2 : glookup (appendChild G s c ++ [(c, [])]) k = glookup G k := by
            rw [glookup_append_left _ (by rw [hlk1]; exact hv), hv]
          rw [h6 k hk (by rw [hkeys2]; exact List.mem_append_left _ hkG), hlk2]
        · intro c' hc'
          rcases List.mem_cons.1 hc' with he | hm
          · subst he
            refine Or.inr ?_
            rw [h1]
            exact List.mem_append_left _ hckeys2
          · exact h7 c' hm

/-! ### The candidate pool is finite and contains every reachable state -/

theorem exists_nth_of_mem {s : State} {c : Nat} (h : c ∈ s) :
    ∃ i, nth s i = c := by
  obtain ⟨i, hi⟩ := List.get_of_mem h
  refine ⟨i, ?_⟩
  subst hi
  show s.getD i 0 = s.get i
  rw [List.getD_eq_getElem?_getD, List.getElem?_eq_getElem i.isLt]
  simp

theorem mem_allLists : ∀ {l b : Nat} {s : State},
    s ∈ allLists l b ↔ s.length = l ∧ ∀ c ∈ s, c ≤ b := by
  intro l
  induction l with
  | zero =>
      intro b s
      show s ∈ [[]] ↔ _
      constructor
      · intro h
        rw [List.mem_singleton.1 h]
        simp
      · intro ⟨h, _⟩
        rw [List.length_eq_zero.1 h]
        exact List.mem_singleton.2 rfl
  | succ l ih =>
      intro b s
      show s ∈ (List.range (b + 1)).flatMap
        (fun c => (allLists l b).map (fun r => c :: r)) ↔ _
      rw [List.mem_flatMap]
      constructor
      · rintro ⟨c, hc, hs⟩
        obtain ⟨r, hr, rfl⟩ := List.mem_map.1 hs
        obtain ⟨hlen, hb⟩ := ih.1 hr
        refine ⟨by simp [hlen], ?_⟩
        intro x hx
        rcases List.mem_cons.1 hx with rfl | hm
        · have := List.mem_range.1 hc; omega
        · exact hb x hm
      · rintro ⟨hlen, hb⟩
        cases s with
        | nil => simp at hlen
        | cons c r =>
            refine ⟨c, List.mem_range.2 (by
              have := hb c (List.mem_cons_self c r); omega), ?_⟩
            refine List.mem_map.2 ⟨r, ih.2 ⟨by simpa using hlen, ?_⟩, rfl⟩
            intro x hx
            exact hb x (List.mem_cons_of_mem c hx)

theorem mem_candidates {n : Nat} {s : State} :
    s ∈ candidates n ↔ s.length ≤ n ∧ ∀ c ∈ s, c ≤ n := by
  show s ∈ (List.range (n + 1)).flatMap (fun l => allLists l n) ↔ _
  rw [List.mem_flatMap]
  constructor
  · rintro ⟨l, hl, hs⟩
    obtain ⟨hlen, hb⟩ := mem_allLists.1 hs
    exact ⟨by have := List.mem_range.1 hl; omega, hb⟩
  · rintro ⟨hlen, hb⟩
    exact ⟨s.length, List.mem_range.2 (by omega), mem_allLists.2 ⟨rfl, hb⟩⟩

theorem reachable_mem_candidates {n : Nat} {s : State} (hn : 1 ≤ n)
    (h : Reachable n s) : s ∈ candidates n := by
  refine mem_candidates.2 ⟨reachable_length_le hn h, ?_⟩
  intro c hc
  obtain ⟨i, hi⟩ := exists_nth_of_mem hc
  have := reachable_nth_le h i
  omega

theorem nodup_subset_length_le {l l' : List State} (hn : l.Nodup)
    (hs : ∀ x ∈ l, x ∈ l') : l.length ≤ l'.length := by
  calc l.length = l.toFinset.card := (List.toFinset_card_of_nodup hn).symm
  _ ≤ l'.toFinset.card := Finset.card_le_card (fun x hx =>
      List.mem_toFinset.2 (hs x (List.mem_toFinset.1 hx)))
  _ ≤ l'.length := List.toFinset_card_le l'

/-! ### The worklist loop: invariant preservation and termination -/

theorem getLast?_some_decomp : ∀ {l : List State} {s : State},
    l.getLast? = some s → l = l.dropLast ++ [s] := by
  intro l
  induction l with
  | nil => intro s h; exact Option.noConfusion h
  | cons a rest ih =>
      intro s h
      cases rest with
      | nil =>
          have : a = s := by
            have hh : some a = some s := h
            injection hh
          rw [this]
          rfl
      | cons b rest' =>
          have hh : (b :: rest').getLast? = some s := h
          have := ih hh
          show a :: (b :: rest') = (a :: (b :: rest')).dropLast ++ [s]
          rw [List.dropLast_cons_of_ne_nil (by simp)]
          rw [List.cons_append]
          rw [← this]

theorem genStep_inv {n : Nat} {G : Graph} {opts : List State} {s : State}
    (inv : GInv n G opts) (hlast : opts.getLast? = some s) :
    GInv n (genVisit s (evolve s) G opts.dropLast).1
        (genVisit s (evolve s) G opts.dropLast).2 ∧
    ∃ F : Nat,
      (keys (genVisit s (evolve s) G opts.dropLast).1).length
        = (keys G).length + F ∧
      (genVisit s (evolve s) G opts.dropLast).2.length + 1 = opts.length + F := by
  have hdecomp : opts = opts.dropLast ++ [s] := getLast?_some_decomp hlast
  have hsopts : s ∈ opts := by
    rw [hdecomp]
    exact List.mem_append_right _ (List.mem_singleton.2 rfl)
  have hskeys : s ∈ keys G := inv.optsKeys s hsopts
  have hslk : glookup G s = some [] := by
    rcases inv.keysStatus s hskeys with ⟨_, h⟩ | ⟨hno, _, _⟩
    · exact h
    · exact absurd hsopts hno
  have hno : (opts.dropLast ++ [s]).Nodup := by rw [← hdecomp]; exact inv.optsNodup
  obtain ⟨hdropnd, _, hdisj⟩ := List.nodup_append.1 hno
  have hsnotdrop : s ∉ opts.dropLast := fun hmem =>
    (List.disjoint_left.1 hdisj hmem) (List.mem_singleton.2 rfl)
  have hdropopts : ∀ o ∈ opts.dropLast, o ∈ opts := by
    intro o ho
    rw [hdecomp]
    exact List.mem_append_left _ ho
  obtain ⟨fresh, h1, h2, h3, h4, h5, h6, h7⟩ :=
    genVisit_spec s (evolve s) G opts.dropLast hskeys
  have hsreach : Reachable n s := inv.keysReach s hskeys
  constructor
  · constructor
    · -- keysNodup
      rw [h1]
      refine List.nodup_append.2 ⟨inv.keysNodup, h3, ?_⟩
      intro x hx hxf
      exact (h4 x hxf).2.2.1 hx
    · -- initMem
      rw [h1]
      exact List.mem_append_left _ inv.initMem
    · -- optsNodup
      rw [h2]
      refine List.nodup_append.2 ⟨hdropnd, h3, ?_⟩
      intro x hx hxf
      exact (h4 x hxf).2.2.1 (inv.optsKeys x (hdropopts x hx))
    · -- optsKeys
      intro o ho
      rw [h2] at ho
      rw [h1]
      rcases List.mem_append.1 ho with hl | hr
      · exact List.mem_append_left _ (inv.optsKeys o (hdropopts o hl))
      · exact List.mem_append_right _ hr
    · -- keysReach
      intro k hk
      rw [h1] at hk
      rcases List.mem_append.1 hk with hl | hr
      · exact inv.keysReach k hl
      · exact Relation.ReflTransGen.tail hsreach ((h4 k hr).1)
    · -- keysInit
      intro k hk
      rw [h1] at hk
      rcases List.mem_append.1 hk with hl | hr
      · exact inv.keysInit k hl
      · exact Or.inr ((h4 k hr).2.1)
    · -- keysStatus
      intro k hk
      rw [h1] at hk
      rcases List.mem_append.1 hk with hl | hr
      · by_cases hks : k = s
        · subst hks
          refine Or.inr ⟨?_, ?_, ?_⟩
          · rw [h2]
            intro hmem
            rcases List.mem_append.1 hmem with hd | hf
            · exact hsnotdrop hd
            · exact (h4 k hf).2.2.1 hskeys
          · have := h5 [] hslk
            rwa [List.nil_append] at this
          · exact h7
        · have hpres := h6 k hks hl
          rcases inv.keysStatus k hl with ⟨hin, hlk⟩ | ⟨hnin, hlk, hch⟩
          · refine Or.inl ⟨?_, by rw [hpres]; exact hlk⟩
            rw [h2]
            refine List.mem_append_left _ ?_
            rw [hdecomp] at hin
            rcases List.mem_append.1 hin with hd | hsng
            · exact hd
            · exact absurd (List.mem_singleton.1 hsng) hks
          · refine Or.inr ⟨?_, by rw [hpres]; exact hlk, ?_⟩
            · rw [h2]
              intro hmem
              rcases List.mem_append.1 hmem with hd | hf
              · exact hnin (hdropopts k hd)
              · exact (h4 k hf).2.2.1 hl
            · intro c hc
              rcases hch c hc with hfin | hmem
              · exact Or.inl hfin
              · exact Or.inr (by rw [h1]; exact List.mem_append_left _ hmem)
      · exact Or.inl ⟨by rw [h2]; exact List.mem_append_right _ hr,
          (h4 k hr).2.2.2⟩
  · refine ⟨fresh.length, by rw [h1]; simp, ?_⟩
    rw [h2]
    have : opts.length = opts.dropLast.length + 1 := by
      rw [hdecomp]
      simp
    simp only [List.length_append]
    omega

theorem genLoop_ok : ∀ (fuel n : Nat) (G : Graph) (opts : List State),
    1 ≤ n → GInv n G opts →
    2 * ((candidates n).length - (keys G).length) + opts.length < fuel →
    ∃ G', genLoop fuel G opts = some G' ∧ GInv n G' []
  | 0 => by
      intro n G opts _ _ hf
      omega
  | fuel + 1 => by
      intro n G opts hn inv hf
      cases hlast : opts.getLast? with
      | none =>
          have hopts : opts = [] := List.getLast?_eq_none_iff.1 hlast
          subst hopts
          exact ⟨G, rfl, inv⟩
      | some s =>
          obtain ⟨inv', F, hkF, hoF⟩ := genStep_inv inv hlast
          have hred : genLoop (fuel + 1) G opts
              = genLoop fuel (genVisit s (evolve s) G opts.dropLast).1
                  (genVisit s (evolve s) G opts.dropLast).2 := by
            show (match opts.getLast? with
              | none => some G
              | some s' =>
                  let p := genVisit s' (evolve s') G opts.dropLast
                  genLoop fuel p.1 p.2) = _
            rw [hlast]
          rw [hred]
          have hsub : (keys (genVisit s (evolve s) G opts.dropLast).1).length
              ≤ (candidates n).length :=
            nodup_subset_length_le inv'.keysNodup (fun x hx =>
              reachable_mem_candidates hn (inv'.keysReach x hx))
          have hopne : 1 ≤ opts.length := by
            cases opts with
            | nil => exact absurd hlast (by simp)
            | cons a rest => simp
          exact genLoop_ok fuel n _ _ hn inv' (by omega)

theorem generate_spec {n : Nat} (hn : 1 ≤ n) :
    genLoop (genFuel n) [([n], [])] [[n]] = some (generate n) ∧
      GInv n (generate n) [] := by
  have hinv : GInv n [([n], [])] [[n]] := by
    constructor
    · show ([[n]] : List State).Nodup
      simp
    · show [n] ∈ [[n]]
      simp
    · simp
    · intro o ho
      rw [List.mem_singleton.1 ho]
      show [n] ∈ [[n]]
      simp
    · intro k hk
      have : k = [n] := by simpa [keys] using hk
      rw [this]
      exact Relation.ReflTransGen.refl
    · intro k hk
      exact Or.inl (by simpa [keys] using hk)
    · intro k hk
      have hkn : k = [n] := by simpa [keys] using hk
      subst hkn
      refine Or.inl ⟨by simp, ?_⟩
      show (if [n] = [n] then some [] else none) = some []
      rw [if_pos rfl]
  have hcand : [n] ∈ candidates n :=
    mem_candidates.2 ⟨by simp; omega, by intro c hc; simp at hc; omega⟩
  have hlen : 1 ≤ (candidates n).length := by
    cases hc : candidates n with
    | nil => rw [hc] at hcand; simp at hcand
    | cons a rest => simp
  obtain ⟨G', hG', hinv'⟩ := genLoop_ok (genFuel n) n [([n], [])] [[n]] hn hinv
    (by
      show 2 * ((candidates n).length - (keys [([n], [])]).length) + 1 < genFuel n
      have : (keys [([n], [])]).length = 1 := rfl
      rw [this]
      unfold genFuel
      omega)
  have hgen : generate n = G' := by
    unfold generate
    rw [hG']
    rfl
  rw [hgen]
  exact ⟨hG', hinv'⟩

/-! ### Facts about the finished graph -/

theorem generate_key_lookup {n : Nat} (hn : 1 ≤ n) :
    ∀ k ∈ keys (generate n), glookup (generate n) k = some (evolve k) ∧
      ∀ c ∈ evolve k, final c = true ∨ c ∈ keys (generate n) := by
  intro k hk
  obtain ⟨_, hinv⟩ := generate_spec hn
  rcases hinv.keysStatus k hk with ⟨hin, _⟩ | ⟨_, hlk, hch⟩
  · simp at hin
  · exact ⟨hlk, hch⟩

theorem generate_lookup_keys {n : Nat} (hn : 1 ≤ n) {s : State}
    {l : List State} (h : glookup (generate n) s = some l) : l = evolve s :=
  by
  have hk := mem_keys_of_glookup h
  have := (generate_key_lookup hn s hk).1
  rw [h] at this
  exact Option.some.inj this

theorem generate_edge_pot3 {n : Nat} (hn : 1 ≤ n) {s t : State}
    (h : EdgeOf (generate n) s t) : pot3 s < pot3 t := by
  obtain ⟨l, hl, ht⟩ := h
  rw [generate_lookup_keys hn hl] at ht
  exact evolve_pot3 ht

theorem transGen_pot3 {R : State → State → Prop}
    (hR : ∀ s t, R s t → pot3 s < pot3 t) {s t : State}
    (h : Relation.TransGen R s t) : pot3 s < pot3 t := by
  induction h with
  | single h' => exact hR _ _ h'
  | tail _ h' ih => exact lt_trans ih (hR _ _ h')

/-- C2. `generate n` terminates (the fueled worklist loop reaches an empty
worklist and returns the graph, with the fuel `generate` supplies), and the
graph it returns is acyclic: no state has a nonempty edge path back to
itself, and likewise no nonempty chain of rule applications returns to its
starting state. -/
theorem claim_c2_terminates_acyclic (n : Nat) (hn : 1 ≤ n) :
    genLoop (genFuel n) [([n], [])] [[n]] = some (generate n) ∧
    (∀ s, ¬ Relation.TransGen (EdgeOf (generate n)) s s) ∧
    (∀ s, Reachable n s → ¬ Relation.TransGen evolveStep s s) := by
  refine ⟨(generate_spec hn).1, ?_, ?_⟩
  · intro s hcyc
    exact lt_irrefl _ (transGen_pot3 (fun _ _ h => generate_edge_pot3 hn h) hcyc)
  · intro s _ hcyc
    exact lt_irrefl _ (transGen_pot3 (fun _ _ h => evolve_pot3 h) hcyc)

/-- Witness for C2 at `n = 1`: the loop returns, and the one-node graph has
no cycle through the initial state. -/
theorem claim_c2_terminates_acyclic_witness :
    genLoop (genFuel 1) [([1], [])] [[1]] = some (generate 1) ∧
      ¬ Relation.TransGen (EdgeOf (generate 1)) [1] [1] :=
  ⟨(claim_c2_terminates_acyclic 1 (by decide)).1,
   (claim_c2_terminates_acyclic 1 (by decide)).2.1 [1]⟩

theorem generate_nodes_reachable {n : Nat} (hn : 1 ≤ n) :
    ∀ x ∈ nodesOf (generate n), Reachable n x := by
  intro x hx
  obtain ⟨_, hinv⟩ := generate_spec hn
  rcases mem_nodesOf.1 hx with hk | hf
  · exact hinv.keysReach x hk
  · obtain ⟨s, v, hmem, hc⟩ := flatten_child hf
    have hlk : glookup (generate n) s = some v :=
      glookup_of_mem_nodup hinv.keysNodup hmem
    have hv : v = evolve s := generate_lookup_keys hn hlk
    rw [hv] at hc
    exact Relation.ReflTransGen.tail
      (hinv.keysReach s (mem_keys_of_glookup hlk)) hc

theorem generate_node_final_or_key {n : Nat} (hn : 1 ≤ n) :
    ∀ x ∈ nodesOf (generate n), final x = true ∨ x ∈ keys (generate n) := by
  intro x hx
  obtain ⟨_, hinv⟩ := generate_spec hn
  rcases mem_nodesOf.1 hx with hk | hf
  · exact Or.inr hk
  · obtain ⟨s, v, hmem, hc⟩ := flatten_child hf
    have hlk : glookup (generate n) s = some v :=
      glookup_of_mem_nodup hinv.keysNodup hmem
    have hv : v = evolve s := generate_lookup_keys hn hlk
    rw [hv] at hc
    exact (generate_key_lookup hn s (mem_keys_of_glookup hlk)).2 x hc

theorem generate_reachable_nodes {n : Nat} (hn : 1 ≤ n) :
    ∀ x, Reachable n x → x ∈ nodesOf (generate n) := by
  intro x hx
  obtain ⟨_, hinv⟩ := generate_spec hn
  induction hx with
  | refl => exact mem_nodesOf.2 (Or.inl hinv.initMem)
  | tail hr hstep ih =>
      rename_i b c
      have hb : b ∈ nodesOf (generate n) := ih
      rcases generate_node_final_or_key hn b hb with hfin | hkey
      · have hnil : evolve b = [] := final_evolve_nil hfin
        have : c ∈ evolve b := hstep
        rw [hnil] at this
        simp at this
      · have hlk := (generate_key_lookup hn b hkey).1
        exact mem_nodesOf.2 (Or.inr (child_mem_flatten hlk hstep))

theorem generate_key_final {n : Nat} (hn : 1 ≤ n) {k : State}
    (hk : k ∈ keys (generate n)) (hfin : final k = true) : k = [n] := by
  obtain ⟨_, hinv⟩ := generate_spec hn
  rcases hinv.keysInit k hk with he | hne
  · exact he
  · rw [hfin] at hne
    exact Bool.noConfusion hne

/-- C6, counterexample: for `n = 2` the terminal state `(0, 1)` is reachable
(in one carry-up move from `(2,)`), yet it is not a key of the graph returned
by `generate 2` — terminal children are recorded only inside successor
lists. -/
theorem claim_c6_counterexample :
    Reachable 2 [0, 1] ∧ final [0, 1] = true ∧
      glookup (generate 2) [0, 1] = none :=
  ⟨Relation.ReflTransGen.single (by decide : [0, 1] ∈ evolve [2]),
   by decide, by decide⟩

/-- C6, amended: every reachable terminal state is present in the graph as a
*node* (it occurs in a successor list, or is the initial key), but it is a
key only when it is the initial state `(n,)` itself; terminal states reached
as children are never keys, so they are not mapped to an empty successor
list. -/
theorem claim_c6_amended (n : Nat) (hn : 1 ≤ n) :
    ∀ s, Reachable n s → final s = true →
      s ∈ nodesOf (generate n) ∧
        (containsKey (generate n) s = true → s = [n]) := by
  intro s hr hfin
  refine ⟨generate_reachable_nodes hn s hr, ?_⟩
  intro hck
  exact generate_key_final hn (containsKey_iff.1 hck) hfin

/-- Witness for the amended C6: the terminal `(0,1)` is a node of
`generate 2`'s graph. -/
theorem claim_c6_amended_witness : [0, 1] ∈ nodesOf (generate 2) :=
  (claim_c6_amended 2 (by decide) [0, 1]
    (Relation.ReflTransGen.single (by decide : [0, 1] ∈ evolve [2]))
    (by decide)).1

/-! ### Correctness of the topological ordering -/

theorem preds_subset_nodes {G : Graph} (r : State) :
    ∀ p ∈ preds G r, p ∈ nodesOf G := by
  intro p hp
  unfold preds at hp
  cases hg : glookup G r with
  | none => rw [hg] at hp; simp at hp
  | some l =>
      rw [hg] at hp
      simp only [Option.getD_some] at hp
      exact mem_nodesOf.2 (Or.inr (child_mem_flatten hg hp))

theorem edge_of_preds {G : Graph} {r p : State} (hp : p ∈ preds G r) :
    EdgeOf G r p := by
  unfold preds at hp
  cases hg : glookup G r with
  | none => rw [hg] at hp; simp at hp
  | some l =>
      rw [hg] at hp
      simp only [Option.getD_some] at hp
      exact ⟨l, hg, hp⟩

theorem topoAux_spec (G : Graph)
    (hedge : ∀ s t, EdgeOf G s t → pot3 s < pot3 t) :
    ∀ (fuel : Nat) (done rem : List State),
      rem.length ≤ fuel → rem.Nodup →
      (∀ x ∈ nodesOf G, x ∈ done ∨ x ∈ rem) →
      ∃ ord, topoAux G fuel done rem = some ord ∧
        (∀ x, x ∈ ord ↔ x ∈ rem) ∧ ord.Nodup ∧ TopoSorted G done ord
  | 0, done, rem, hlen, _, _ => by
      have hrem : rem = [] := List.length_eq_zero.1 (by omega)
      subst hrem
      refine ⟨[], by simp [topoAux], by simp, List.nodup_nil, trivial⟩
  | fuel + 1, done, rem, hlen, hnd, hcov => by
      by_cases hrem : rem.isEmpty
      · have hre : rem = [] := by
          cases rem with
          | nil => rfl
          | cons a r => simp at hrem
        subst hre
        refine ⟨[], by simp [topoAux], by simp, List.nodup_nil, trivial⟩
      · have hrne : rem ≠ [] := by
          intro he
          rw [he] at hrem
          exact hrem rfl
        obtain ⟨r0, hr0⟩ : ∃ a, rem.argmax pot3 = some a := by
          cases ha : rem.argmax pot3 with
          | none => exact absurd (List.argmax_eq_none.1 ha) hrne
          | some a => exact ⟨a, rfl⟩
        have hr0mem : r0 ∈ rem := List.argmax_mem hr0
        have hr0max : ∀ x ∈ rem, pot3 x ≤ pot3 r0 := fun x hx =>
          List.le_of_mem_argmax hx hr0
        have hr0ready : ((preds G r0).all (fun p => decide (p ∈ done))) = true := by
          rw [List.all_eq_true]
          intro p hp
          rw [decide_eq_true_eq]
          have hlt : pot3 r0 < pot3 p := hedge _ _ (edge_of_preds hp)
          rcases hcov p (preds_subset_nodes r0 p hp) with hd | hr
          · exact hd
          · exact absurd (hr0max p hr) (by omega)
        have hfind : (pickReady G done rem).isSome := by
          unfold pickReady
          rw [List.find?_isSome]
          exact ⟨r0, hr0mem, hr0ready⟩
        obtain ⟨r, hrfind⟩ : ∃ r, pickReady G done rem = some r := by
          cases hp : pickReady G done rem with
          | none => rw [hp] at hfind; simp at hfind
          | some r => exact ⟨r, rfl⟩
        have hrmem : r ∈ rem := List.mem_of_find?_eq_some hrfind
        have hrready : ∀ p ∈ preds G r, p ∈ done := by
          have := List.find?_some hrfind
          rw [List.all_eq_true] at this
          intro p hp
          have := this p hp
          rwa [decide_eq_true_eq] at this
        have herase_len : (rem.erase r).length ≤ fuel := by
          rw [List.length_erase, if_pos hrmem]
          omega
        have herase_nd : (rem.erase r).Nodup := hnd.erase r
        have herase_cov : ∀ x ∈ nodesOf G, x ∈ done ++ [r] ∨ x ∈ rem.erase r := by
          intro x hx
          rcases hcov x hx with hd | hr
          · exact Or.inl (List.mem_append_left _ hd)
          · by_cases hxr : x = r
            · exact Or.inl (List.mem_append_right _ (List.mem_singleton.2 hxr))
            · exact Or.inr ((hnd.mem_erase_iff).2 ⟨hxr, hr⟩)
        obtain ⟨ord, hord, hmem, hordnd, hsorted⟩ :=
          topoAux_spec G hedge fuel (done ++ [r]) (rem.erase r)
            herase_len herase_nd herase_cov
        have heq : topoAux G (fuel + 1) done rem = some (r :: ord) := by
          show (if rem.isEmpty then some []
            else match pickReady G done rem with
              | none => none
              | some r' =>
                  match topoAux G fuel (done ++ [r']) (rem.erase r') with
                  | none => none
                  | some tail => some (r' :: tail)) = _
          rw [if_neg hrem, hrfind]
          show (match topoAux G fuel (done ++ [r]) (rem.erase r) with
            | none => none
            | some tail => some (r :: tail)) = some (r :: ord)
          rw [hord]
        refine ⟨r :: ord, heq, ?_, ?_, hrready, hsorted⟩
        · intro x
          rw [List.mem_cons, hmem x, hnd.mem_erase_iff]
          constructor
          · rintro (rfl | ⟨_, hx⟩)
            · exact hrmem
            · exact hx
          · intro hx
            by_cases hxr : x = r
            · exact Or.inl hxr
            · exact Or.inr ⟨hxr, hx⟩
        · refine List.nodup_cons.2 ⟨?_, hordnd⟩
          intro hrord
          exact ((hnd.mem_erase_iff).1 ((hmem r).1 hrord)).1 rfl

theorem topoOrder_spec {G : Graph}
    (hedge : ∀ s t, EdgeOf G s t → pot3 s < pot3 t) :
    ∃ ord, topoOrder G = some ord ∧
      (∀ x, x ∈ ord ↔ x ∈ nodesOf G) ∧ ord.Nodup ∧ TopoSorted G [] ord := by
  obtain ⟨ord, hord, hmem, hnd, hsorted⟩ :=
    topoAux_spec G hedge (nodesOf G).length [] (nodesOf G) (le_refl _)
      (List.nodup_dedup _) (fun x hx => Or.inr hx)
  exact ⟨ord, hord, hmem, hnd, hsorted⟩

/-! ### Correctness of `strategize` -/

theorem stratFilter_eq {strat : Graph} :
    ∀ {children : List State}, (∀ c ∈ children, c ∈ keys strat) →
      stratFilter strat children
        = some (children.filter
            (fun c => ((glookup strat c).getD [[]]).isEmpty)) := by
  intro children
  induction children with
  | nil => intro _; rfl
  | cons c cs ih =>
      intro h
      obtain ⟨m, hm⟩ := glookup_isSome_of_mem (h c (List.mem_cons_self c cs))
      have hrest := ih (fun x hx => h x (List.mem_cons_of_mem c hx))
      show (do
        let m' ← glookup strat c
        let rest ← stratFilter strat cs
        if m'.isEmpty then some (c :: rest) else some rest) = _
      rw [hm, hrest]
      simp only [Option.bind_eq_bind, Option.some_bind, List.filter_cons]
      rw [hm]
      simp only [Option.getD_some]
      by_cases hme : m.isEmpty
      · rw [if_pos hme, if_pos hme]
      · rw [if_neg hme, if_neg (by simpa using hme)]

theorem strategizeGo_spec (G : Graph) :
    ∀ (todo : List State) (strat : Graph),
      (∀ s ∈ todo, s ∈ keys G) →
      TopoSorted G (keys strat) todo →
      (keys strat).Nodup →
      (∀ s ∈ todo, s ∉ keys strat) →
      todo.Nodup →
      ∃ strat', strategizeGo G todo strat = some strat' ∧
        keys strat' = keys strat ++ todo ∧
        (∀ k v, glookup strat k = some v → glookup strat' k = some v) ∧
        (∀ k v, glookup strat' k = some v →
          glookup strat k = some v ∨
          (∃ children, glookup G k = some children ∧
            (∀ c ∈ children, ∃ m, glookup strat' c = some m) ∧
            v = children.filter
              (fun c => ((glookup strat' c).getD [[]]).isEmpty)))
  | [], strat, _, _, _, _, _ =>
      ⟨strat, rfl, by simp, fun _ _ h => h, fun _ _ h => Or.inl h⟩
  | s :: rest, strat, hkeysG, hts, hndstrat, hdisj, hndtodo => by
      obtain ⟨hpred, hts'⟩ := hts
      obtain ⟨children, hch⟩ := glookup_isSome_of_mem
        (hkeysG s (List.mem_cons_self s rest))
      have hpredch : preds G s = children := by
        unfold preds
        rw [hch]
        rfl
      have hchstrat : ∀ c ∈ children, c ∈ keys strat := by
        intro c hc
        exact hpred c (by rw [hpredch]; exact hc)
      have hfil := stratFilter_eq hchstrat
      have hsnot : s ∉ keys strat := hdisj s (List.mem_cons_self s rest)
      have hsnone : glookup strat s = none := glookup_none_iff.2 hsnot
      have hkeys1 : keys (strat ++ [(s,
          children.filter (fun c => ((glookup strat c).getD [[]]).isEmpty))])
          = keys strat ++ [s] := by
        rw [keys_append]
        rfl
      have hpres1 : ∀ k v, glookup strat k = some v →
          glookup (strat ++ [(s,
            children.filter (fun c => ((glookup strat c).getD [[]]).isEmpty))]) k
            = some v :=
        fun k v h => glookup_append_left _ h
      have hlk1s : glookup (strat ++ [(s,
          children.filter (fun c => ((glookup strat c).getD [[]]).isEmpty))]) s
          = some (children.filter
              (fun c => ((glookup strat c).getD [[]]).isEmpty)) := by
        rw [glookup_append_right _ hsnone]
        show (if s = s then _ else none) = _
        rw [if_pos rfl]
      obtain ⟨strat', hgo, hkeys', hpres', hchar'⟩ :=
        strategizeGo_spec G rest
          (strat ++ [(s,
            children.filter (fun c => ((glookup strat c).getD [[]]).isEmpty))])
          (fun x hx => hkeysG x (List.mem_cons_of_mem s hx))
          (by rw [hkeys1]; exact hts')
          (by
            rw [hkeys1]
            refine List.nodup_append.2 ⟨hndstrat, by simp, ?_⟩
            intro x hx hxs
            rw [List.mem_singleton.1 hxs] at hx
            exact hsnot hx)
          (by
            intro x hx
            rw [hkeys1]
            intro hmem
            rcases List.mem_append.1 hmem with hl | hr
            · exact hdisj x (List.mem_cons_of_mem s hx) hl
            · rw [List.mem_singleton.1 hr] at hx
              exact (List.nodup_cons.1 hndtodo).1 hx)
          (List.nodup_cons.1 hndtodo).2
      have heq : strategizeGo G (s :: rest) strat = some strat' := by
        show (do
          let children' ← glookup G s
          let moves ← stratFilter strat children'
          strategizeGo G rest (strat ++ [(s, moves)])) = _
        rw [hch]
        simp only [Option.bind_eq_bind, Option.some_bind]
        rw [hfil]
        simp only [Option.some_bind]
        exact hgo
      refine ⟨strat', heq, ?_, ?_, ?_⟩
      · rw [hkeys', hkeys1, List.append_assoc, List.singleton_append]
      · intro k v h
        exact hpres' k v (hpres1 k v h)
      · intro k v h
        rcases hchar' k v h with hin | hout
        · by_cases hks : k ∈ keys strat
          · obtain ⟨w, hw⟩ := glookup_isSome_of_mem hks
            have := hpres1 k w hw
            rw [this] at hin
            rw [hw, ← Option.some.inj hin]
            exact Or.inl rfl
          · have hknone : glookup strat k = none := glookup_none_iff.2 hks
            rw [glookup_append_right _ hknone] at hin
            have hks' : s = k := by
              by_contra hne
              rw [show glookup [(s,
                children.filter
                  (fun c => ((glookup strat c).getD [[]]).isEmpty))] k = none
                from by
                  show (if s = k then _ else none) = none
                  rw [if_neg hne]] at hin
              exact Option.noConfusion hin
            subst hks'
            have hv : v = children.filter
                (fun c => ((glookup strat c).getD [[]]).isEmpty) := by
              have : (if s = s then some (children.filter
                (fun c => ((glookup strat c).getD [[]]).isEmpty)) else none)
                  = some v := hin
              rw [if_pos rfl] at this
              exact (Option.some.inj this).symm
            refine Or.inr ⟨children, hch, ?_, ?_⟩
            · intro c hc
              obtain ⟨m, hm⟩ := glookup_isSome_of_mem (hchstrat c hc)
              exact ⟨m, hpres' c m (hpres1 c m hm)⟩
            · rw [hv]
              refine List.filter_congr ?_
              intro c hc
              obtain ⟨m, hm⟩ := glookup_isSome_of_mem (hchstrat c hc)
              rw [hm, hpres' c m (hpres1 c m hm)]
        · exact Or.inr hout

/-- Combined specification of `strategize (generate n)`: the topological order
starts at the unique reachable terminal state, all lookups succeed, and every
strategy entry is the filtered successor list. -/
theorem generate_strategize_spec (n : Nat) (hn : 1 ≤ n) :
    ∃ z ord strat,
      Reachable n z ∧ final z = true ∧
      (∀ s, Reachable n s → final s = true → s = z) ∧
      topoOrder (generate n) = some ord ∧ ord.head? = some z ∧
      strategize (generate n) = some strat ∧
      (∀ s m, glookup strat s = some m →
        m = (succsOf (generate n) s).filter
          (fun c => ((glookup strat c).getD [[]]).isEmpty)) ∧
      (∀ s m, glookup strat s = some m → ∀ c ∈ succsOf (generate n) s,
        ∃ mc, glookup strat c = some mc) := by
  obtain ⟨z, hzr, hzf⟩ := exists_final_reachable hn
  have huniq : ∀ s, Reachable n s → final s = true → s = z := fun s hr hf =>
    final_reachable_unique hn hr hzr hf hzf
  obtain ⟨ord, hord, hmem, hnd, hsorted⟩ :=
    topoOrder_spec (fun s t h => generate_edge_pot3 hn h)
  have hinit : [n] ∈ nodesOf (generate n) :=
    mem_nodesOf.2 (Or.inl (generate_spec hn).2.initMem)
  have hordne : ord ≠ [] := by
    intro he
    have hmemn := (hmem [n]).2 hinit
    rw [he] at hmemn
    simp at hmemn
  match ord, hord, hmem, hnd, hsorted with
  | r0 :: rest, hord, hmem, hnd, hsorted =>
  obtain ⟨hpred0, hts⟩ := hsorted
  have hr0nodes : r0 ∈ nodesOf (generate n) :=
    (hmem r0).1 (List.mem_cons_self r0 rest)
  have hpred0nil : preds (generate n) r0 = [] := by
    rw [List.eq_nil_iff_forall_not_mem]
    intro p hp
    simpa using hpred0 p hp
  have hr0final : final r0 = true := by
    rcases generate_node_final_or_key hn r0 hr0nodes with hf | hk
    · exact hf
    · have hlk := (generate_key_lookup hn r0 hk).1
      have : preds (generate n) r0 = evolve r0 := by
        unfold preds
        rw [hlk]
        rfl
      rw [hpred0nil] at this
      exact (final_iff_evolve_nil r0).2 this.symm
  have hr0z : r0 = z := huniq r0 (generate_nodes_reachable hn r0 hr0nodes) hr0final
  have hrestkeys : ∀ x ∈ rest, x ∈ keys (generate n) := by
    intro x hx
    have hxnodes : x ∈ nodesOf (generate n) :=
      (hmem x).1 (List.mem_cons_of_mem r0 hx)
    rcases generate_node_final_or_key hn x hxnodes with hf | hk
    · have hxz : x = z := huniq x (generate_nodes_reachable hn x hxnodes) hf
      rw [hxz, ← hr0z] at hx
      exact absurd hx (List.nodup_cons.1 hnd).1
    · exact hk
  obtain ⟨strat, hgo, hkeys', hpres, hchar⟩ :=
    strategizeGo_spec (generate n) rest [(r0, [])] hrestkeys
      (by
        have : keys [(r0, ([] : List State))] = [r0] := rfl
        rw [this]
        have h0 : ([] : List State) ++ [r0] = [r0] := rfl
        rw [← h0]
        exact hts)
      (by simp [keys])
      (by
        intro x hx hmem'
        have : keys [(r0, ([] : List State))] = [r0] := rfl
        rw [this] at hmem'
        rw [List.mem_singleton.1 hmem'] at hx
        exact (List.nodup_cons.1 hnd).1 hx)
      (List.nodup_cons.1 hnd).2
  have hstrat : strategize (generate n) = some strat := by
    unfold strategize
    rw [hord]
    exact hgo
  have hlkr0 : glookup [(r0, ([] : List State))] r0 = some [] := by
    show (if r0 = r0 then some [] else none) = some []
    rw [if_pos rfl]
  have hsuccz : succsOf (generate n) r0 = [] := by
    unfold succsOf
    unfold preds at hpred0nil
    exact hpred0nil
  refine ⟨z, r0 :: rest, strat, hzr, hzf, huniq, hord, by rw [hr0z]; rfl,
    hstrat, ?_, ?_⟩
  · intro s m hm
    rcases hchar s m hm with hin | ⟨children, hch, _, hfil⟩
    · have hs0 : s = r0 ∧ m = [] := by
        have : (if r0 = s then some ([] : List State) else none) = some m := hin
        by_cases hrs : r0 = s
        · rw [if_pos hrs] at this
          exact ⟨hrs.symm, (Option.some.inj this).symm⟩
        · rw [if_neg hrs] at this
          exact Option.noConfusion this
      rw [hs0.1, hs0.2, hsuccz]
      rfl
    · have : succsOf (generate n) s = children := by
        unfold succsOf
        rw [hch]
        rfl
      rw [this]
      exact hfil
  · intro s m hm c hc
    rcases hchar s m hm with hin | ⟨children, hch, hentries, _⟩
    · have hs0 : s = r0 := by
        have : (if r0 = s then some ([] : List State) else none) = some m := hin
        by_cases hrs : r0 = s
        · exact hrs.symm
        · rw [if_neg hrs] at this
          exact Option.noConfusion this
      rw [hs0, hsuccz] at hc
      simp at hc
    · have : succsOf (generate n) s = children := by
        unfold succsOf
        rw [hch]
        rfl
      rw [this] at hc
      exact hentries c hc

/-- C4. Strategy consistency: in the table returned by
`strategize (generate n)`, the strategy list of every state is exactly the
sub-list of that state's graph successors whose own strategy list is empty;
hence every element of a state's strategy is one of its graph successors and
has empty strategy, and a state with empty strategy has only successors with
non-empty strategy. -/
theorem claim_c4_strategy_consistency (n : Nat) (hn : 1 ≤ n) :
    ∃ strat, strategize (generate n) = some strat ∧
      (∀ s m, glookup strat s = some m →
        m = (succsOf (generate n) s).filter
          (fun c => ((glookup strat c).getD [[]]).isEmpty)) ∧
      (∀ s m, glookup strat s = some m → ∀ c ∈ m,
        c ∈ succsOf (generate n) s ∧ glookup strat c = some []) ∧
      (∀ s m, glookup strat s = some m → m = [] →
        ∀ c ∈ succsOf (generate n) s,
          ∃ mc, glookup strat c = some mc ∧ mc ≠ []) := by
  obtain ⟨z, ord, strat, _, _, _, _, _, hstrat, hfil, hent⟩ :=
    generate_strategize_spec n hn
  refine ⟨strat, hstrat, hfil, ?_, ?_⟩
  · intro s m hm c hc
    rw [hfil s m hm] at hc
    have hcm := List.mem_filter.1 hc
    refine ⟨hcm.1, ?_⟩
    obtain ⟨mc, hmc⟩ := hent s m hm c hcm.1
    have hpred := hcm.2
    rw [hmc] at hpred
    simp only [Option.getD_some] at hpred
    rw [hmc, List.isEmpty_iff.1 hpred]
  · intro s m hm hme c hc
    obtain ⟨mc, hmc⟩ := hent s m hm c hc
    refine ⟨mc, hmc, ?_⟩
    intro hmcnil
    have : c ∈ (succsOf (generate n) s).filter
        (fun c => ((glookup strat c).getD [[]]).isEmpty) := by
      refine List.mem_filter.2 ⟨hc, ?_⟩
      rw [hmc, hmcnil]
      rfl
    rw [← hfil s m hm, hme] at this
    simp at this

/-- Witness for C4 at `n = 2`: the solver succeeds on `generate 2`. -/
theorem claim_c4_strategy_consistency_witness :
    (strategize (generate 2)).isSome = true := by
  obtain ⟨strat, hs, -, -, -⟩ := claim_c4_strategy_consistency 2 (by decide)
  rw [hs]
  rfl

/-- C9. For every positive `n` exactly one reachable state is terminal (the
Zeckendorf form of `n`); the first node of the topological order consumed by
`strategize` is that unique terminal state, and `strategize (generate n)`
completes without a failed lookup (the `KeyError` branch is unreachable). -/
theorem claim_c9_unique_terminal_no_keyerror (n : Nat) (hn : 1 ≤ n) :
    ∃ z, (Reachable n z ∧ final z = true) ∧
      (∀ s, Reachable n s → final s = true → s = z) ∧
      (∃ ord, topoOrder (generate n) = some ord ∧ ord.head? = some z) ∧
      (strategize (generate n)).isSome = true := by
  obtain ⟨z, ord, strat, hzr, hzf, huniq, hord, hhead, hstrat, -, -⟩ :=
    generate_strategize_spec n hn
  exact ⟨z, ⟨hzr, hzf⟩, huniq, ⟨ord, hord, hhead⟩, by rw [hstrat]; rfl⟩

/-- Witness for C9 at `n = 3`: the solver succeeds on `generate 3`. -/
theorem claim_c9_unique_terminal_no_keyerror_witness :
    (strategize (generate 3)).isSome = true := by
  obtain ⟨z, -, -, -, h⟩ := claim_c9_unique_terminal_no_keyerror 3 (by decide)
  exact h
